import Mathlib

/-!
Verification of the task-graph consistency engine of a project-management
web application.

The embedding follows the TypeScript source:

* `Task` mirrors the task record of `src/types.ts` (`id`, `startDate`,
  `duration`, `parentId`, `dependencyIds`).  Calendar dates are abstracted
  to integer day numbers: `parseISO`/`addDays`/`differenceInDays` become
  integer arithmetic, and both the string comparison of ISO `yyyy-mm-dd`
  dates and the `Date` comparison agree with the integer order.  A missing
  start date (`null`) is `none`; the sort key `startDate ?? ''` orders the
  missing date before every real date.
* `getDependencyOrder`, `isDescendant`, `dependsOnTransitive` come from the
  task-list view (`TaskList.tsx`).  The two recursive predicates have no
  termination guard in the source, so they are embedded with an explicit
  fuel parameter; `none` means the recursion has not finished within the
  given fuel, and divergence of the source corresponds to the result being
  `none` for every fuel.
* `canDropAsDependencyF`, `canDependOnList` come from the drag-and-drop and
  dependency-select paths of the same view.
* `addDependency` and `deleteTask` embed the persistence layer
  (`server/src/db.ts`) as pure transformers of the in-memory task list.
  The SQL schema declares `parent_id REFERENCES tasks(id) ON DELETE
  CASCADE`, so deleting a row deletes its whole subtree; `deleteTask`
  models the statement `DELETE ... WHERE id = $1 OR parent_id = $1`
  together with that cascade, followed by
  `UPDATE ... SET dependency_ids = array_remove(dependency_ids, $1)`.
* `getEffectiveTaskBounds` embeds `src/utils/dateUtils.ts`, again with fuel
  because the recursion over children is unguarded.
-/

namespace PMT

structure Task where
  id : String
  startDate : Option Int
  duration : Int
  parentId : Option String
  dependencyIds : List String
deriving DecidableEq, Repr

/-- The children of a task id: `tasks.filter((t) => t.parentId === pid)`. -/
def childrenOf (tasks : List Task) (pid : String) : List Task :=
  tasks.filter (fun t => decide (t.parentId = some pid))

/-- One pass of the loop body of `isDescendant`: walk the children in order,
return `true` on an id match, recurse otherwise, short-circuiting on the
first `true`.  `none` from a recursive call (out of fuel) is propagated. -/
def descendStep (nodeId : String) (rec : String → Option Bool) :
    List Task → Option Bool
  | [] => some false
  | c :: cs =>
    if c.id = nodeId then some true
    else
      match rec c.id with
      | none => none
      | some true => some true
      | some false => descendStep nodeId rec cs

/-- Fuel embedding of `isDescendant(tasks, ancestorId, nodeId)`
(`TaskList.tsx`): depth-first walk of the parent→child relation with no
visited set; each recursive call consumes one unit of fuel. -/
def isDescendantF (tasks : List Task) : Nat → String → String → Option Bool
  | 0, _, _ => none
  | n + 1, ancestorId, nodeId =>
    descendStep nodeId (fun cid => isDescendantF tasks n cid nodeId)
      (childrenOf tasks ancestorId)

/-- One pass of `task.dependencyIds.some((d) => dependsOnTransitive(...))`:
sequential, short-circuiting on the first `true`. -/
def depStep (rec : String → Option Bool) : List String → Option Bool
  | [] => some false
  | d :: ds =>
    match rec d with
    | none => none
    | some true => some true
    | some false => depStep rec ds

/-- Fuel embedding of `dependsOnTransitive(tasks, taskId, targetId)`
(`TaskList.tsx`): find the task, return `true` on a direct dependency,
otherwise recurse over the dependency ids with no visited set. -/
def dependsOnTransitiveF (tasks : List Task) :
    Nat → String → String → Option Bool
  | 0, _, _ => none
  | n + 1, taskId, targetId =>
    match tasks.find? (fun t => decide (t.id = taskId)) with
    | none => some false
    | some task =>
      if decide (targetId ∈ task.dependencyIds) then some true
      else depStep (fun d => dependsOnTransitiveF tasks n d targetId)
        task.dependencyIds

/-- The tasks whose every dependency is outside `remaining` (already placed
or dangling): the "ready" filter of `getDependencyOrder`. -/
def readyTasks (tasks : List Task) (remaining : List String) : List Task :=
  tasks.filter (fun t =>
    decide (t.id ∈ remaining) &&
      t.dependencyIds.all (fun d => !decide (d ∈ remaining)))

/-- The comparator `(a.startDate ?? '').localeCompare(b.startDate ?? '')`:
a missing date (the empty string) sorts before every date, and ISO dates
compare like their day numbers. -/
def keyLe (a b : Task) : Bool :=
  match a.startDate, b.startDate with
  | none, _ => true
  | some _, none => false
  | some x, some y => decide (x ≤ y)

/-- Insert `a` before the first element it compares `keyLe` to; for equal
keys the inserted element stays behind none — `insertTask` places `a`
before the first `b` with `keyLe a b`, and `sortTasks` inserts earlier
input elements last, which reproduces the stable order of
`Array.prototype.sort`. -/
def insertTask (a : Task) : List Task → List Task
  | [] => [a]
  | b :: bs => if keyLe a b then a :: b :: bs else b :: insertTask a bs

/-- Stable sort by `keyLe`: `ready.sort((a, b) => (a.startDate ??
'').localeCompare(b.startDate ?? ''))`.  `Array.prototype.sort` is stable,
and a stable sort with respect to a total preorder is unique, so insertion
sort is extensionally the same function. -/
def sortTasks : List Task → List Task
  | [] => []
  | a :: as => insertTask a (sortTasks as)

/-- The `while (remaining.size > 0)` loop of `getDependencyOrder`: emit the
ready tasks sorted by start date (stable), remove them from `remaining`,
repeat; if nothing is ready, emit the remaining ids in set order and stop.
The extra `Nat` argument only counts loop iterations: every non-final
iteration removes at least one id from `remaining`, so with at least
`remaining.length` iterations allowed the count never reaches zero before
the loop ends on its own (`orderLoopA_fuel_irrelevant` below). -/
def orderLoopA (tasks : List Task) : Nat → List String → List String
  | 0, remaining => remaining
  | k + 1, remaining =>
    if readyTasks tasks remaining = [] then remaining
    else
      ((sortTasks (readyTasks tasks remaining)).map (fun t => t.id)) ++
        orderLoopA tasks k (remaining.filter (fun x =>
          !decide (x ∈ (sortTasks (readyTasks tasks remaining)).map
            (fun t => t.id))))

/-- First-occurrence deduplication: the element order of
`new Set(tasks.map((t) => t.id))`; `seen` carries the ids kept so far. -/
def mkIdSetAux (seen : List String) : List String → List String
  | [] => []
  | x :: xs =>
    if x ∈ seen then mkIdSetAux seen xs
    else x :: mkIdSetAux (x :: seen) xs

/-- The id set `new Set(tasks.map((t) => t.id))` in iteration order. -/
def mkIdSet (l : List String) : List String := mkIdSetAux [] l

/-- `getDependencyOrder(tasks)` (`TaskList.tsx`): Kahn-style layered
topological order; `new Set(tasks.map((t) => t.id))` keeps the first
occurrence of each id in input order. -/
def getDependencyOrder (tasks : List Task) : List String :=
  orderLoopA tasks (mkIdSet (tasks.map (fun t => t.id))).length
    (mkIdSet (tasks.map (fun t => t.id)))

/-- Whether `targetId` is already in `taskId`'s dependency set:
`tasks.find((t) => t.id === taskId)?.dependencyIds.includes(targetId)`,
`false` when the task is absent (optional chaining). -/
def memberDeps (tasks : List Task) (taskId targetId : String) : Bool :=
  match tasks.find? (fun t => decide (t.id = taskId)) with
  | some t => decide (targetId ∈ t.dependencyIds)
  | none => false

/-- The `canDropAsDependency` gate of the drop modal (`TaskList.tsx`):
`!dependsOnTransitive(tasks, dropKey, dragKey) &&
!tasks.find((t) => t.id === dragKey)?.dependencyIds.includes(dropKey)`.
The fuel of the transitive check is propagated. -/
def canDropAsDependencyF (tasks : List Task) (n : Nat)
    (dragKey dropKey : String) : Option Bool :=
  (dependsOnTransitiveF tasks n dropKey dragKey).map
    (fun dep => !dep && !memberDeps tasks dragKey dropKey)

/-- The option list of the add-dependency select (`TaskList.tsx` line 153):
`tasks.filter((t) => t.id !== task.id && !task.dependencyIds.includes(t.id))`.
Choosing any entry fires `onAddDependency(task.id, t.id)` directly. -/
def canDependOnList (tasks : List Task) (task : Task) : List Task :=
  tasks.filter (fun t =>
    !decide (t.id = task.id) && !decide (t.id ∈ task.dependencyIds))

/-- The specification predicate `canAddDependency(taskId, targetId)`,
written from the spec text: true iff `taskId != targetId`, `targetId` is
not already in `taskId`'s dependency set, and
`dependsOnTransitive(targetId, taskId)` is false. -/
def specCanAddDependency (tasks : List Task) (n : Nat)
    (taskId targetId : String) : Option Bool :=
  (dependsOnTransitiveF tasks n targetId taskId).map
    (fun dep => decide (taskId ≠ targetId) &&
      !memberDeps tasks taskId targetId && !dep)

/-- `addDependency(taskId, dependsOnTaskId)` (`server/src/db.ts`): a
self-dependency returns `true` with no query; otherwise the row with the
given id gets the new dependency appended unless already present, and the
result reports whether a row was updated. -/
def addDependency (tasks : List Task) (taskId dependsOnTaskId : String) :
    List Task × Bool :=
  if taskId = dependsOnTaskId then (tasks, true)
  else
    (tasks.map (fun t =>
      if decide (t.id = taskId) && !decide (dependsOnTaskId ∈ t.dependencyIds)
      then { t with dependencyIds := t.dependencyIds ++ [dependsOnTaskId] }
      else t),
     tasks.any (fun t =>
      decide (t.id = taskId) && !decide (dependsOnTaskId ∈ t.dependencyIds)))

/-- One round of the `ON DELETE CASCADE` of `parent_id` (`schema.sql`):
the ids of tasks whose parent is already deleted join the deleted set. -/
def cascadeStep (tasks : List Task) (s : Finset String) : Finset String :=
  s ∪ ((tasks.filter (fun t =>
    match t.parentId with
    | some p => decide (p ∈ s)
    | none => false)).map (fun t => t.id)).toFinset

/-- The set of ids removed by deleting `id`: the closure of `{id}` under the
parent cascade, reached after at most `tasks.length + 1` rounds. -/
def removedSet (tasks : List Task) (id : String) : Finset String :=
  (cascadeStep tasks)^[tasks.length + 1] {id}

/-- `deleteTask(id)` (`server/src/db.ts` plus the schema cascade):
`DELETE FROM tasks WHERE id = $1 OR parent_id = $1` reports `false` when it
matches no row; otherwise the cascade removes the whole subtree and
`array_remove` strips `id` from every remaining dependency array. -/
def deleteTask (tasks : List Task) (id : String) : List Task × Bool :=
  if tasks.filter (fun t =>
      decide (t.id = id) || decide (t.parentId = some id)) = [] then
    (tasks, false)
  else
    ((tasks.filter (fun t => !decide (t.id ∈ removedSet tasks id))).map
      (fun t => { t with
        dependencyIds := t.dependencyIds.filter (fun d => !decide (d = id)) }),
     true)

structure Bounds where
  startDate : Option Int
  duration : Int
deriving DecidableEq, Repr

/-- `if (!minStart || b.startDate < minStart) minStart = b.startDate`:
the new minimum-so-far once a child start `s` is seen. -/
def updMin : Option Int → Int → Int
  | none, s => s
  | some m, s => min m s

/-- `if (!maxEndExclusive || endExclusive > maxEndExclusive) ...`: the new
maximum-so-far once a child end `e` is seen. -/
def updMax : Option Int → Int → Int
  | none, e => e
  | some m, e => max m e

/-- The loop over children in `getEffectiveTaskBounds`: accumulate the
minimum effective start and the maximum effective exclusive end over the
children whose effective start is present. -/
def foldChildren (rec : String → Option Bounds) :
    List Task → Option Int → Option Int → Option (Option Int × Option Int)
  | [], minS, maxE => some (minS, maxE)
  | c :: cs, minS, maxE =>
    match rec c.id with
    | none => none
    | some b =>
      match b.startDate with
      | none => foldChildren rec cs minS maxE
      | some s =>
        foldChildren rec cs (some (updMin minS s))
          (some (updMax maxE (s + b.duration)))

/-- The tail of `getEffectiveTaskBounds` after the children loop:
`if (!minStart || !maxEndExclusive)` fall back to the task's own fields,
else `(minStart, Math.max(1, differenceInDays(maxEndExclusive,
parseISO(minStart))))`. -/
def combine (task : Task) (pr : Option Int × Option Int) : Bounds :=
  match pr with
  | (some m, some e) => ⟨some m, max 1 (e - m)⟩
  | (_, _) => ⟨task.startDate, task.duration⟩

/-- Fuel embedding of `getEffectiveTaskBounds(tasks, taskId)`
(`src/utils/dateUtils.ts`): absent task → `(null, 0)`; leaf → own fields;
otherwise span the children recursively, falling back to the own fields
when no child has an effective start. -/
def getEffectiveTaskBounds (tasks : List Task) : Nat → String → Option Bounds
  | 0, _ => none
  | n + 1, taskId =>
    match tasks.find? (fun t => decide (t.id = taskId)) with
    | none => some ⟨none, 0⟩
    | some task =>
      if childrenOf tasks taskId = [] then
        some ⟨task.startDate, task.duration⟩
      else
        (foldChildren (fun cid => getEffectiveTaskBounds tasks n cid)
            (childrenOf tasks taskId) none none).map (combine task)

/-- The effective start date of `x` at fuel `n`. -/
def effStart (tasks : List Task) (n : Nat) (x : String) : Option Int :=
  match getEffectiveTaskBounds tasks n x with
  | some b => b.startDate
  | none => none

/-- The effective exclusive end (`start + duration`) of `x` at fuel `n`,
absent when the effective start is absent. -/
def effEnd (tasks : List Task) (n : Nat) (x : String) : Option Int :=
  match getEffectiveTaskBounds tasks n x with
  | some ⟨some s, d⟩ => some (s + d)
  | _ => none

/-- One parent→child step: `b` is a task of the snapshot whose parent is
`a`. -/
def ChildStep (tasks : List Task) (a b : String) : Prop :=
  ∃ t ∈ tasks, t.id = b ∧ t.parentId = some a

/-- `x` is `root` itself or one of its descendants through parent links. -/
def DescendsFrom (tasks : List Task) (root x : String) : Prop :=
  Relation.ReflTransGen (ChildStep tasks) root x

/-- The largest `rk`-rank of a task id of the snapshot. -/
def maxRank (rk : String → Nat) (tasks : List Task) : Nat :=
  tasks.foldr (fun t m => max (rk t.id) m) 0

/-- Acyclicity of the parent relation, given by a rank function that grows
strictly from parent to child. -/
def PRank (rk : String → Nat) (tasks : List Task) : Prop :=
  ∀ t ∈ tasks, ∀ p, t.parentId = some p → rk p < rk t.id

/-- Decidable form of `PRank` used to certify concrete snapshots. -/
def prankB (rk : String → Nat) (tasks : List Task) : Bool :=
  tasks.all (fun t =>
    match t.parentId with
    | some p => decide (rk p < rk t.id)
    | none => true)

/-- Acyclicity of the dependency relation, given by a rank function that
drops strictly from a task to each of its dependencies. -/
def DRank (rk : String → Nat) (tasks : List Task) : Prop :=
  ∀ t ∈ tasks, ∀ d ∈ t.dependencyIds, rk d < rk t.id

/-- Acyclicity of the dependency relation restricted to the ids present in
the snapshot. -/
def DRankIn (rk : String → Nat) (tasks : List Task) : Prop :=
  ∀ t ∈ tasks, ∀ d ∈ t.dependencyIds,
    d ∈ tasks.map (fun t => t.id) → rk d < rk t.id

instance decDRank (rk : String → Nat) (tasks : List Task) :
    Decidable (DRank rk tasks) :=
  inferInstanceAs (Decidable (∀ t ∈ tasks, ∀ d ∈ t.dependencyIds,
    rk d < rk t.id))

instance decDRankIn (rk : String → Nat) (tasks : List Task) :
    Decidable (DRankIn rk tasks) :=
  inferInstanceAs (Decidable (∀ t ∈ tasks, ∀ d ∈ t.dependencyIds,
    d ∈ tasks.map (fun u : Task => u.id) → rk d < rk t.id))

/- Concrete snapshots used as witnesses and counterexamples. -/

/-- A single task with no dependencies. -/
def exSelf : List Task := [⟨"a", none, 1, none, []⟩]

/-- Task `a` depends on task `b`. -/
def tA : Task := ⟨"a", none, 1, none, ["b"]⟩

/-- Task `b`, no dependencies. -/
def tB : Task := ⟨"b", none, 1, none, []⟩

/-- Snapshot where `a` depends on `b`. -/
def exC5 : List Task := [tA, tB]

/-- A parent cycle: task `a` is its own parent. -/
def cycP : List Task := [⟨"a", none, 1, some "a", []⟩]

/-- A dependency 2-cycle between `a` and `b`. -/
def cycD : List Task :=
  [⟨"a", none, 1, none, ["b"]⟩, ⟨"b", none, 1, none, ["a"]⟩]

/-- Duplicate-id snapshot: two tasks share id `a`; the second depends on
`b`. -/
def exDup : List Task :=
  [⟨"a", none, 1, none, []⟩, ⟨"a", none, 1, none, ["b"]⟩,
   ⟨"b", none, 1, none, []⟩]

/-- Dependency rank for `exDup`. -/
def rkDup : String → Nat := fun s => if s = "b" then 0 else 1

/-- The diamond scenario of the spec: 2 and 3 depend on 1, 4 depends on 2
and 3. -/
def exScen : List Task :=
  [⟨"1", some 1, 1, none, []⟩, ⟨"2", some 2, 1, none, ["1"]⟩,
   ⟨"3", some 1, 1, none, ["1"]⟩, ⟨"4", none, 1, none, ["2", "3"]⟩]

/-- Dependency rank for `exScen`. -/
def rkScen : String → Nat :=
  fun s => if s = "1" then 0 else if s = "4" then 2 else 1

/-- A dependency 2-cycle plus an isolated task. -/
def exCyc3 : List Task :=
  [⟨"a", none, 1, none, ["b"]⟩, ⟨"b", none, 1, none, ["a"]⟩,
   ⟨"c", none, 1, none, []⟩]

/-- A root `r` with one child `c`, both scheduled. -/
def exForest : List Task :=
  [⟨"r", some 1, 2, none, []⟩, ⟨"c", some 3, 4, some "r", []⟩]

/-- Parent rank for `exForest`. -/
def rkForest : String → Nat := fun s => if s = "c" then 1 else 0

/-- Deletion witness: root `r`, child `c1`, grandchild `g1`, and an
unrelated task `o` depending on `r` and `g1`. -/
def exDel : List Task :=
  [⟨"r", none, 1, none, []⟩, ⟨"c1", none, 1, some "r", []⟩,
   ⟨"g1", none, 1, some "c1", []⟩, ⟨"o", none, 1, none, ["r", "g1"]⟩]

/-- Aggregation witness: parent `p` with two scheduled children. -/
def exAgg : List Task :=
  [⟨"p", some 100, 5, none, []⟩, ⟨"c1", some 10, 3, some "p", []⟩,
   ⟨"c2", some 4, 2, some "p", []⟩]

/-- Parent rank for `exAgg` and `exDel`. -/
def rkAgg : String → Nat := fun s => if s = "p" then 0 else 1

/-! ## Helper lemmas -/

theorem mem_mkIdSetAux (l : List String) :
    ∀ (seen : List String) (a : String),
      a ∈ mkIdSetAux seen l ↔ a ∈ l ∧ a ∉ seen := by
  induction l with
  | nil => intro seen a; simp [mkIdSetAux]
  | cons x xs ih =>
    intro seen a
    rw [mkIdSetAux]
    by_cases hx : x ∈ seen
    · rw [if_pos hx, ih]
      constructor
      · rintro ⟨h1, h2⟩; exact ⟨List.mem_cons_of_mem x h1, h2⟩
      · rintro ⟨h1, h2⟩
        rcases List.mem_cons.mp h1 with rfl | h1
        · exact absurd hx h2
        · exact ⟨h1, h2⟩
    · rw [if_neg hx]
      constructor
      · intro hmem
        rcases List.mem_cons.mp hmem with rfl | hmem
        · exact ⟨List.mem_cons_self a xs, hx⟩
        · obtain ⟨h1, h2⟩ := (ih (x :: seen) a).mp hmem
          exact ⟨List.mem_cons_of_mem x h1,
            fun hs => h2 (List.mem_cons_of_mem x hs)⟩
      · rintro ⟨h1, h2⟩
        rcases List.mem_cons.mp h1 with rfl | h1
        · exact List.mem_cons_self a _
        · by_cases hax : a = x
          · subst hax; exact List.mem_cons_self a _
          · refine List.mem_cons_of_mem x ((ih (x :: seen) a).mpr ⟨h1, ?_⟩)
            intro hs
            rcases List.mem_cons.mp hs with h | h
            · exact hax h
            · exact h2 h

theorem mem_mkIdSet (l : List String) (a : String) :
    a ∈ mkIdSet l ↔ a ∈ l := by
  rw [mkIdSet, mem_mkIdSetAux]
  simp

theorem nodup_mkIdSetAux (l : List String) :
    ∀ seen : List String, (mkIdSetAux seen l).Nodup := by
  induction l with
  | nil => intro seen; simp [mkIdSetAux]
  | cons x xs ih =>
    intro seen
    rw [mkIdSetAux]
    by_cases hx : x ∈ seen
    · rw [if_pos hx]; exact ih seen
    · rw [if_neg hx]
      refine List.nodup_cons.mpr ⟨fun hmem => ?_, ih (x :: seen)⟩
      have := ((mem_mkIdSetAux xs (x :: seen) x).mp hmem).2
      exact this (List.mem_cons_self x seen)

theorem nodup_mkIdSet (l : List String) : (mkIdSet l).Nodup :=
  nodup_mkIdSetAux l []

theorem mkIdSetAux_eq_self (l : List String) :
    ∀ seen : List String, l.Nodup → (∀ a ∈ l, a ∉ seen) →
      mkIdSetAux seen l = l := by
  induction l with
  | nil => intro seen _ _; rfl
  | cons x xs ih =>
    intro seen hnd hout
    rw [mkIdSetAux, if_neg (hout x (List.mem_cons_self x xs))]
    congr 1
    refine ih (x :: seen) (List.nodup_cons.mp hnd).2 ?_
    intro a ha hs
    rcases List.mem_cons.mp hs with rfl | h
    · exact (List.nodup_cons.mp hnd).1 ha
    · exact hout a (List.mem_cons_of_mem x ha) h

theorem mkIdSet_eq_self (l : List String) (h : l.Nodup) : mkIdSet l = l :=
  mkIdSetAux_eq_self l [] h (by simp)

theorem rank_le_maxRank (rk : String → Nat) :
    ∀ (tasks : List Task), ∀ t ∈ tasks, rk t.id ≤ maxRank rk tasks := by
  intro tasks
  induction tasks with
  | nil => intro t ht; exact absurd ht (List.not_mem_nil t)
  | cons t0 ts ih =>
    intro t ht
    rcases List.mem_cons.mp ht with rfl | h
    · exact le_max_left _ _
    · exact le_trans (ih t h) (le_max_right _ _)

theorem prank_of_bool (rk : String → Nat) (tasks : List Task)
    (h : prankB rk tasks = true) : PRank rk tasks := by
  intro t ht p hp
  have hall := List.all_eq_true.mp h t ht
  rw [hp] at hall
  simpa using hall

/-! ## Claim C9: self-dependency in the persistence layer -/

/-- Claim C9: for every snapshot and id, `addDependency(taskId, taskId)`
returns `true` while leaving the task list unchanged, indistinguishable
from a genuine successful insertion. -/
theorem addDependency_self_reports_success (tasks : List Task)
    (taskId : String) : addDependency tasks taskId taskId = (tasks, true) := by
  simp [addDependency]

/-! ## Claim C10: effective bounds of an absent task -/

/-- Claim C10: for a task id not present in the snapshot,
`getEffectiveTaskBounds` returns `(startDate = null, duration = 0)`
(a duration strictly below the documented minimum of 1) for every positive
fuel, i.e. the source returns it immediately without recursion. -/
theorem getEffectiveTaskBounds_absent (tasks : List Task) (taskId : String)
    (h : taskId ∉ tasks.map (fun t => t.id)) (n : Nat) (hn : 1 ≤ n) :
    getEffectiveTaskBounds tasks n taskId = some ⟨none, 0⟩ := by
  obtain ⟨m, rfl⟩ : ∃ m, n = m + 1 := ⟨n - 1, by omega⟩
  rw [getEffectiveTaskBounds]
  have hf : tasks.find? (fun t => decide (t.id = taskId)) = none := by
    rw [List.find?_eq_none]
    intro t ht
    simp only [decide_eq_true_eq]
    exact fun he => h (he ▸ List.mem_map_of_mem (fun t => t.id) ht)
  rw [hf]

/-- Witness for C10 at a concrete absent id. -/
theorem getEffectiveTaskBounds_absent_witness :
    ("zz" ∉ exC5.map (fun t => t.id) ∧ 1 ≤ 1) ∧
      getEffectiveTaskBounds exC5 1 "zz" = some ⟨none, 0⟩ :=
  ⟨⟨by decide, le_refl 1⟩,
   getEffectiveTaskBounds_absent exC5 "zz" (by decide) 1 (le_refl 1)⟩

/-! ## Claim C4: the can-add-dependency gate -/

/-- Claim C4, counterexample: the drop gate `canDropAsDependency` does not
check `taskId != targetId`; on a snapshot with a single dependency-free
task it answers `true` for the pair `("a", "a")`, where the claimed
three-condition characterisation (which requires `taskId != targetId`)
demands `false` — as the spec predicate `specCanAddDependency` shows. -/
theorem canDropAsDependency_self_cex :
    canDropAsDependencyF exSelf 2 "a" "a" = some true ∧
      specCanAddDependency exSelf 2 "a" "a" = some false := by
  exact ⟨rfl, rfl⟩

/-- Claim C4, amended: whenever the transitive check finishes, the drop
gate answers `true` iff `targetId` is not already in `taskId`'s dependency
set and `dependsOnTransitive(targetId, taskId)` is false; the
`taskId != targetId` condition is not part of this check (it is enforced
upstream by the drop handler, which never opens the modal for a
self-drop). -/
theorem canDropAsDependency_iff (tasks : List Task) (n : Nat)
    (dragKey dropKey : String) (r : Bool)
    (h : canDropAsDependencyF tasks n dragKey dropKey = some r) :
    r = true ↔ (memberDeps tasks dragKey dropKey = false ∧
      dependsOnTransitiveF tasks n dropKey dragKey = some false) := by
  rw [canDropAsDependencyF] at h
  cases hdep : dependsOnTransitiveF tasks n dropKey dragKey with
  | none => rw [hdep] at h; exact absurd h (by simp)
  | some dep =>
    rw [hdep] at h
    simp only [Option.map_some', Option.some_inj] at h
    subst h
    cases dep <;> cases hmem : memberDeps tasks dragKey dropKey <;>
      simp [hmem, hdep]

/-- Witness for the amended C4 on a concrete snapshot where the gate
rejects because the reverse transitive dependency exists. -/
theorem canDropAsDependency_iff_witness :
    canDropAsDependencyF exC5 2 "a" "b" = some false ∧
      (false = true ↔ (memberDeps exC5 "a" "b" = false ∧
        dependsOnTransitiveF exC5 2 "b" "a" = some false)) :=
  ⟨rfl, canDropAsDependency_iff exC5 2 "a" "b" false rfl⟩

/-! ## Claim C5: the presentation layer always gates add-dependency -/

/-- Claim C5 fails on the code: in the snapshot where `a` depends on `b`,
the add-dependency select of task `b` offers task `a` (the option list
checks only self and duplicates), and choosing it fires
`onAddDependency("b", "a")` directly — yet `canAddDependency("b", "a")` is
false because `a` transitively depends on `b`.  The select path therefore
issues a mutation the gate rejects, creating a dependency 2-cycle. -/
theorem canDependOnList_bypasses_cycle_gate :
    tA ∈ canDependOnList exC5 tB ∧
      specCanAddDependency exC5 2 "b" "a" = some false := by
  exact ⟨by decide, rfl⟩

/-! ## Termination and divergence of the two recursive predicates -/

theorem mem_childrenOf {tasks : List Task} {pid : String} {c : Task} :
    c ∈ childrenOf tasks pid ↔ c ∈ tasks ∧ c.parentId = some pid := by
  simp [childrenOf]

theorem descendStep_ne_none (nodeId : String) (rec : String → Option Bool)
    (children : List Task) (h : ∀ c ∈ children, rec c.id ≠ none) :
    descendStep nodeId rec children ≠ none := by
  induction children with
  | nil => simp [descendStep]
  | cons c cs ih =>
    rw [descendStep]
    by_cases hc : c.id = nodeId
    · rw [if_pos hc]; simp
    · rw [if_neg hc]
      cases hrec : rec c.id with
      | none => exact absurd hrec (h c (List.mem_cons_self c cs))
      | some b =>
        cases b
        · exact ih (fun c hc => h c (List.mem_cons_of_mem _ hc))
        · simp

theorem isDescendantF_ne_none (tasks : List Task) (rk : String → Nat)
    (hp : PRank rk tasks) :
    ∀ (n : Nat) (anc node : String),
      maxRank rk tasks + 2 ≤ n + min (rk anc) (maxRank rk tasks + 1) →
      isDescendantF tasks n anc node ≠ none := by
  intro n
  induction n with
  | zero =>
    intro anc node hn
    exfalso
    have h1 := Nat.min_le_right (rk anc) (maxRank rk tasks + 1)
    omega
  | succ n ih =>
    intro anc node hn
    rw [isDescendantF]
    apply descendStep_ne_none
    intro c hc
    obtain ⟨hct, hcp⟩ := mem_childrenOf.mp hc
    have h1 : rk anc < rk c.id := hp c hct anc hcp
    have h2 : rk c.id ≤ maxRank rk tasks := rank_le_maxRank rk tasks c hct
    apply ih
    have h3 := Nat.min_le_left (rk anc) (maxRank rk tasks + 1)
    have h4 : min (rk c.id) (maxRank rk tasks + 1) = rk c.id :=
      Nat.min_eq_left (by omega)
    omega

theorem descendStep_ne_some_true (nodeId : String) (rec : String → Option Bool)
    (children : List Task)
    (h : ∀ c ∈ children, c.id ≠ nodeId ∧ rec c.id ≠ some true) :
    descendStep nodeId rec children ≠ some true := by
  induction children with
  | nil => simp [descendStep]
  | cons c cs ih =>
    rw [descendStep, if_neg (h c (List.mem_cons_self c cs)).1]
    cases hrec : rec c.id with
    | none => simp
    | some b =>
      cases b
      · exact ih (fun c hc => h c (List.mem_cons_of_mem _ hc))
      · exact absurd hrec (h c (List.mem_cons_self c cs)).2

theorem isDescendantF_ne_some_true (tasks : List Task) (rk : String → Nat)
    (hp : PRank rk tasks) :
    ∀ (n : Nat) (anc node : String), rk node ≤ rk anc →
      isDescendantF tasks n anc node ≠ some true := by
  intro n
  induction n with
  | zero => intro anc node _; simp [isDescendantF]
  | succ n ih =>
    intro anc node hle
    rw [isDescendantF]
    apply descendStep_ne_some_true
    intro c hc
    obtain ⟨hct, hcp⟩ := mem_childrenOf.mp hc
    have h1 : rk anc < rk c.id := hp c hct anc hcp
    constructor
    · intro he
      rw [he] at h1
      omega
    · exact ih c.id node (by omega)

theorem depStep_ne_none (rec : String → Option Bool) (ds : List String)
    (h : ∀ d ∈ ds, rec d ≠ none) : depStep rec ds ≠ none := by
  induction ds with
  | nil => simp [depStep]
  | cons d ds ih =>
    rw [depStep]
    cases hrec : rec d with
    | none => exact absurd hrec (h d (List.mem_cons_self d ds))
    | some b =>
      cases b
      · exact ih (fun d hd => h d (List.mem_cons_of_mem _ hd))
      · simp

theorem dependsOnTransitiveF_ne_none (tasks : List Task) (rk : String → Nat)
    (hd : DRank rk tasks) :
    ∀ (n : Nat) (x y : String),
      min (rk x) (maxRank rk tasks + 1) + 2 ≤ n →
      dependsOnTransitiveF tasks n x y ≠ none := by
  intro n
  induction n with
  | zero => intro x y hn; exact absurd hn (by omega)
  | succ n ih =>
    intro x y hn
    rw [dependsOnTransitiveF]
    cases hf : tasks.find? (fun t => decide (t.id = x)) with
    | none => simp
    | some task =>
      have htm : task ∈ tasks := List.mem_of_find?_eq_some hf
      have htid : task.id = x := by simpa using List.find?_some hf
      show ¬(if decide (y ∈ task.dependencyIds) = true then some true
             else depStep (fun d => dependsOnTransitiveF tasks n d y)
               task.dependencyIds) = none
      by_cases hmem : y ∈ task.dependencyIds
      · rw [if_pos (by simpa using hmem)]
        simp
      · rw [if_neg (by simpa using hmem)]
        apply depStep_ne_none
        intro d hdm
        have h1 : rk d < rk task.id := hd task htm d hdm
        rw [htid] at h1
        have h2 : rk x ≤ maxRank rk tasks :=
          htid ▸ rank_le_maxRank rk tasks task htm
        apply ih
        have h3 := Nat.min_le_left (rk d) (maxRank rk tasks + 1)
        have h4 : min (rk x) (maxRank rk tasks + 1) = rk x :=
          Nat.min_eq_left (by omega)
        omega

theorem isDescendantF_cycP_none :
    ∀ n, isDescendantF cycP n "a" "b" = none := by
  intro n
  induction n with
  | zero => rfl
  | succ n ih =>
    show (match isDescendantF cycP n "a" "b" with
          | none => none
          | some true => some true
          | some false => descendStep "b"
              (fun cid => isDescendantF cycP n cid "b") []) = none
    rw [ih]

theorem dependsOnTransitiveF_cycD_none :
    ∀ n, dependsOnTransitiveF cycD n "a" "c" = none ∧
      dependsOnTransitiveF cycD n "b" "c" = none := by
  intro n
  induction n with
  | zero => exact ⟨rfl, rfl⟩
  | succ n ih =>
    constructor
    · show (match dependsOnTransitiveF cycD n "b" "c" with
            | none => none
            | some true => some true
            | some false => depStep
                (fun d => dependsOnTransitiveF cycD n d "c") []) = none
      rw [ih.2]
    · show (match dependsOnTransitiveF cycD n "a" "c" with
            | none => none
            | some true => some true
            | some false => depStep
                (fun d => dependsOnTransitiveF cycD n d "c") []) = none
      rw [ih.1]

/-! ## Claim C6: termination of the predicates -/

/-- Claim C6 fails on the code: on the snapshot whose single task is its
own parent, `isDescendant` recurses without bound (every fuel runs out),
and on the dependency 2-cycle `dependsOnTransitive` recurses without
bound as well — neither predicate has a visited set or depth cap. -/
theorem predicates_diverge_cex :
    (∃ n, isDescendantF cycP n "a" "b" ≠ none) = False ∧
      (∃ n, dependsOnTransitiveF cycD n "a" "c" ≠ none) = False := by
  constructor
  · apply eq_false
    rintro ⟨n, hne⟩
    exact hne (isDescendantF_cycP_none n)
  · apply eq_false
    rintro ⟨n, hne⟩
    exact hne (dependsOnTransitiveF_cycD_none n).1

/-- Claim C6, amended: on snapshots whose parent relation and dependency
relation are acyclic (certified by rank functions), both predicates finish
within fuel bounded by the snapshot's maximal rank, for every query pair;
on cyclic snapshots they may recurse without bound. -/
theorem predicates_terminate_of_acyclic (tasks : List Task)
    (rkp rkd : String → Nat) (hp : PRank rkp tasks) (hd : DRank rkd tasks)
    (a b : String) (n m : Nat) (hn : maxRank rkp tasks + 2 ≤ n)
    (hm : maxRank rkd tasks + 3 ≤ m) :
    (∃ r, isDescendantF tasks n a b = some r) ∧
      (∃ r, dependsOnTransitiveF tasks m a b = some r) := by
  constructor
  · have h1 := isDescendantF_ne_none tasks rkp hp n a b
      (by have := Nat.zero_le (min (rkp a) (maxRank rkp tasks + 1)); omega)
    cases h : isDescendantF tasks n a b with
    | none => exact absurd h h1
    | some r => exact ⟨r, rfl⟩
  · have h1 := dependsOnTransitiveF_ne_none tasks rkd hd m a b
      (by have := Nat.min_le_right (rkd a) (maxRank rkd tasks + 1); omega)
    cases h : dependsOnTransitiveF tasks m a b with
    | none => exact absurd h h1
    | some r => exact ⟨r, rfl⟩

/-- Witness for the amended C6 on a concrete acyclic snapshot. -/
theorem predicates_terminate_witness :
    (PRank rkForest exForest ∧ DRank rkForest exForest ∧
      maxRank rkForest exForest + 2 ≤ 3 ∧ maxRank rkForest exForest + 3 ≤ 4) ∧
      ((∃ r, isDescendantF exForest 3 "c" "r" = some r) ∧
        (∃ r, dependsOnTransitiveF exForest 4 "c" "r" = some r)) :=
  ⟨⟨prank_of_bool rkForest exForest (by decide), by decide, by decide,
    by decide⟩,
   predicates_terminate_of_acyclic exForest rkForest rkForest
     (prank_of_bool rkForest exForest (by decide)) (by decide) "c" "r" 3 4
     (by decide) (by decide)⟩

/-! ## Claim C7: irreflexivity of `isDescendant` -/

/-- Claim C7 fails on the code: on the snapshot whose single task is its
own parent, `isDescendant("a", "a")` returns `true` (the task appears
among its own children, so the id match fires immediately). -/
theorem isDescendant_self_cex : isDescendantF cycP 2 "a" "a" = some true :=
  rfl

/-- Claim C7, amended: on snapshots whose parent relation is acyclic
(certified by a rank function), `isDescendant(T, T)` is false for every
id, with fuel bounded by the snapshot's maximal rank. -/
theorem isDescendant_irrefl_of_acyclic (tasks : List Task)
    (rk : String → Nat) (hp : PRank rk tasks) (x : String) (n : Nat)
    (hn : maxRank rk tasks + 2 ≤ n) :
    isDescendantF tasks n x x = some false := by
  have h1 := isDescendantF_ne_none tasks rk hp n x x
    (by have := Nat.zero_le (min (rk x) (maxRank rk tasks + 1)); omega)
  have h2 := isDescendantF_ne_some_true tasks rk hp n x x (le_refl _)
  cases h : isDescendantF tasks n x x with
  | none => exact absurd h h1
  | some b =>
    cases b
    · rfl
    · exact absurd h h2

/-- Witness for the amended C7 on a concrete acyclic snapshot. -/
theorem isDescendant_irrefl_witness :
    (PRank rkForest exForest ∧ maxRank rkForest exForest + 2 ≤ 3) ∧
      isDescendantF exForest 3 "r" "r" = some false :=
  ⟨⟨prank_of_bool rkForest exForest (by decide), by decide⟩,
   isDescendant_irrefl_of_acyclic exForest rkForest
     (prank_of_bool rkForest exForest (by decide)) "r" 3 (by decide)⟩

/-! ## The ordering function: permutation and topological validity -/

theorem insertTask_perm (a : Task) (l : List Task) :
    (insertTask a l).Perm (a :: l) := by
  induction l with
  | nil => exact List.Perm.refl _
  | cons b bs ih =>
    rw [insertTask]
    by_cases hk : keyLe a b
    · rw [if_pos hk]
    · rw [if_neg hk]
      exact List.Perm.trans (List.Perm.cons b ih) (List.Perm.swap a b bs)

theorem sortTasks_perm (l : List Task) : (sortTasks l).Perm l := by
  induction l with
  | nil => exact List.Perm.refl _
  | cons a as ih =>
    rw [sortTasks]
    exact List.Perm.trans (insertTask_perm a (sortTasks as))
      (List.Perm.cons a ih)

theorem mem_readyTasks {tasks : List Task} {remaining : List String}
    {t : Task} :
    t ∈ readyTasks tasks remaining ↔
      t ∈ tasks ∧ t.id ∈ remaining ∧ ∀ d ∈ t.dependencyIds, d ∉ remaining := by
  simp [readyTasks, List.mem_filter, List.all_eq_true, and_assoc]

theorem exists_rank_min (f : String → Nat) :
    ∀ (l : List String), l ≠ [] → ∃ x ∈ l, ∀ y ∈ l, f x ≤ f y := by
  intro l
  induction l with
  | nil => intro h; exact absurd rfl h
  | cons a l ih =>
    intro _
    by_cases hl : l = []
    · subst hl
      refine ⟨a, List.mem_cons_self a [], ?_⟩
      intro y hy
      rcases List.mem_cons.mp hy with rfl | h
      · exact le_refl _
      · cases h
    · obtain ⟨x, hx, hmin⟩ := ih hl
      by_cases hfa : f a ≤ f x
      · refine ⟨a, List.mem_cons_self a l, ?_⟩
        intro y hy
        rcases List.mem_cons.mp hy with rfl | h
        · exact le_refl _
        · exact le_trans hfa (hmin y h)
      · refine ⟨x, List.mem_cons_of_mem a hx, ?_⟩
        intro y hy
        rcases List.mem_cons.mp hy with rfl | h
        · omega
        · exact hmin y h

theorem readyTasks_ne_nil (tasks : List Task) (rk : String → Nat)
    (hrk : DRankIn rk tasks) (remaining : List String)
    (hne : remaining ≠ [])
    (hsub : ∀ x ∈ remaining, x ∈ tasks.map (fun t => t.id)) :
    readyTasks tasks remaining ≠ [] := by
  obtain ⟨x, hx, hmin⟩ := exists_rank_min rk remaining hne
  obtain ⟨t, ht, htid⟩ := List.mem_map.mp (hsub x hx)
  have htr : t ∈ readyTasks tasks remaining := by
    refine mem_readyTasks.mpr ⟨ht, htid ▸ hx, ?_⟩
    intro d hd hdr
    have h1 : rk d < rk t.id := hrk t ht d hd (hsub d hdr)
    have h2 : rk x ≤ rk d := hmin d hdr
    rw [htid] at h1
    omega
  exact List.ne_nil_of_mem htr

theorem orderLoopA_perm (tasks : List Task)
    (hnd : (tasks.map (fun t => t.id)).Nodup) :
    ∀ (k : Nat) (remaining : List String), remaining.length ≤ k →
      remaining.Nodup → (orderLoopA tasks k remaining).Perm remaining := by
  intro k
  induction k with
  | zero => intro remaining _ _; exact List.Perm.refl _
  | succ k ih =>
    intro remaining hlen hndr
    rw [orderLoopA]
    by_cases hr : readyTasks tasks remaining = []
    · rw [if_pos hr]
    · rw [if_neg hr]
      have hperm : (sortTasks (readyTasks tasks remaining)).Perm
          (readyTasks tasks remaining) := sortTasks_perm _
      have hsubl : (readyTasks tasks remaining).Sublist tasks :=
        List.filter_sublist tasks
      have hnodup_ready :
          ((readyTasks tasks remaining).map (fun t => t.id)).Nodup :=
        hnd.sublist (hsubl.map _)
      have hnodup_sids :
          ((sortTasks (readyTasks tasks remaining)).map
            (fun t => t.id)).Nodup :=
        ((hperm.map (fun t => t.id)).nodup_iff).mpr hnodup_ready
      have hsids_sub : ∀ a ∈ (sortTasks (readyTasks tasks remaining)).map
          (fun t => t.id), a ∈ remaining := by
        intro a ha
        obtain ⟨t, htm, rfl⟩ := List.mem_map.mp ha
        exact (mem_readyTasks.mp (hperm.mem_iff.mp htm)).2.1
      have hfillt : (remaining.filter (fun x =>
          !decide (x ∈ (sortTasks (readyTasks tasks remaining)).map
            (fun t => t.id)))).length < remaining.length := by
        obtain ⟨t, htr⟩ := List.exists_mem_of_ne_nil _ hr
        have hid : t.id ∈ remaining := (mem_readyTasks.mp htr).2.1
        have hidm : t.id ∈ (sortTasks (readyTasks tasks remaining)).map
            (fun t => t.id) :=
          List.mem_map_of_mem _ (hperm.mem_iff.mpr htr)
        refine List.length_filter_lt_length_iff_exists.mpr ⟨t.id, hid, ?_⟩
        simpa using hidm
      have hrec := ih (remaining.filter (fun x =>
          !decide (x ∈ (sortTasks (readyTasks tasks remaining)).map
            (fun t => t.id)))) (by omega) (hndr.filter _)
      have hsp : ((sortTasks (readyTasks tasks remaining)).map
          (fun t => t.id)).Perm (remaining.filter (fun x =>
            decide (x ∈ (sortTasks (readyTasks tasks remaining)).map
              (fun t => t.id)))) := by
        apply List.perm_of_nodup_nodup_toFinset_eq hnodup_sids
          (hndr.filter _)
        ext a
        simp only [List.mem_toFinset, List.mem_filter, decide_eq_true_eq]
        constructor
        · intro ha; exact ⟨hsids_sub a ha, ha⟩
        · rintro ⟨h1, h2⟩; exact h2
      exact List.Perm.trans (List.Perm.append_left _ hrec)
        (List.Perm.trans (List.Perm.append hsp (List.Perm.refl _))
          (List.filter_append_perm _ remaining))

/-! ## Claim C3: the output is a permutation of the input ids -/

/-- Claim C3: for every snapshot with distinct ids — acyclic or cyclic —
`getDependencyOrder` returns a permutation of the input ids. -/
theorem getDependencyOrder_perm (tasks : List Task)
    (hnd : (tasks.map (fun t => t.id)).Nodup) :
    (getDependencyOrder tasks).Perm (tasks.map (fun t => t.id)) := by
  rw [getDependencyOrder, mkIdSet_eq_self _ hnd]
  exact orderLoopA_perm tasks hnd _ _ (le_refl _) hnd

/-- Witness for C3 on a snapshot containing a dependency 2-cycle. -/
theorem getDependencyOrder_perm_witness :
    (exCyc3.map (fun t => t.id)).Nodup ∧
      (getDependencyOrder exCyc3).Perm (exCyc3.map (fun t => t.id)) :=
  ⟨by decide, getDependencyOrder_perm exCyc3 (by decide)⟩

theorem orderLoopA_topo (tasks : List Task) (rk : String → Nat)
    (hnd : (tasks.map (fun t => t.id)).Nodup) (hrk : DRankIn rk tasks) :
    ∀ (k : Nat) (remaining : List String), remaining.length ≤ k →
      remaining.Nodup →
      (∀ x ∈ remaining, x ∈ tasks.map (fun t => t.id)) →
      ∀ t ∈ tasks, t.id ∈ remaining → ∀ d ∈ t.dependencyIds, d ∈ remaining →
        (orderLoopA tasks k remaining).indexOf d <
          (orderLoopA tasks k remaining).indexOf t.id := by
  intro k
  induction k with
  | zero =>
    intro remaining hlen _ _ t _ htid _ _ _
    have hnil : remaining = [] := List.eq_nil_of_length_eq_zero (by omega)
    rw [hnil] at htid
    cases htid
  | succ k ih =>
    intro remaining hlen hndr hsubr t htm htid d hdm hdr
    rw [orderLoopA]
    have hr : readyTasks tasks remaining ≠ [] :=
      readyTasks_ne_nil tasks rk hrk remaining (List.ne_nil_of_mem htid) hsubr
    rw [if_neg hr]
    have hperm : (sortTasks (readyTasks tasks remaining)).Perm
        (readyTasks tasks remaining) := sortTasks_perm _
    by_cases htin : t.id ∈ (sortTasks (readyTasks tasks remaining)).map
        (fun t => t.id)
    · exfalso
      obtain ⟨t2, ht2, ht2id⟩ := List.mem_map.mp htin
      have ht2r : t2 ∈ readyTasks tasks remaining := hperm.mem_iff.mp ht2
      obtain ⟨ht2t, _, hdeps⟩ := mem_readyTasks.mp ht2r
      have heq : t2 = t := List.inj_on_of_nodup_map hnd ht2t htm ht2id
      rw [heq] at hdeps
      exact hdeps d hdm hdr
    · have htid2 : t.id ∈ remaining.filter (fun x =>
          !decide (x ∈ (sortTasks (readyTasks tasks remaining)).map
            (fun t => t.id))) :=
        List.mem_filter.mpr ⟨htid, by simpa using htin⟩
      have hfillt : (remaining.filter (fun x =>
          !decide (x ∈ (sortTasks (readyTasks tasks remaining)).map
            (fun t => t.id)))).length < remaining.length := by
        obtain ⟨t0, ht0⟩ := List.exists_mem_of_ne_nil _ hr
        have hid0 : t0.id ∈ remaining := (mem_readyTasks.mp ht0).2.1
        have hidm0 : t0.id ∈ (sortTasks (readyTasks tasks remaining)).map
            (fun t => t.id) :=
          List.mem_map_of_mem _ (hperm.mem_iff.mpr ht0)
        refine List.length_filter_lt_length_iff_exists.mpr ⟨t0.id, hid0, ?_⟩
        simpa using hidm0
      by_cases hdin : d ∈ (sortTasks (readyTasks tasks remaining)).map
          (fun t => t.id)
      · rw [List.indexOf_append_of_mem hdin,
          List.indexOf_append_of_not_mem htin]
        have h2 : List.indexOf d ((sortTasks
            (readyTasks tasks remaining)).map (fun t => t.id)) <
            ((sortTasks (readyTasks tasks remaining)).map
              (fun t => t.id)).length :=
          List.indexOf_lt_length.mpr hdin
        omega
      · have hdr2 : d ∈ remaining.filter (fun x =>
            !decide (x ∈ (sortTasks (readyTasks tasks remaining)).map
              (fun t => t.id))) :=
          List.mem_filter.mpr ⟨hdr, by simpa using hdin⟩
        have hrec := ih (remaining.filter (fun x =>
            !decide (x ∈ (sortTasks (readyTasks tasks remaining)).map
              (fun t => t.id)))) (by omega) (hndr.filter _)
          (fun x hx => hsubr x (List.mem_filter.mp hx).1) t htm htid2 d hdm
          hdr2
        rw [List.indexOf_append_of_not_mem hdin,
          List.indexOf_append_of_not_mem htin]
        omega

/-! ## Claim C2: topological validity on acyclic inputs -/

/-- Claim C2 fails on the code as literally stated (over every input task
list): with duplicate ids the ordering can place a dependency after its
dependent even though the dependency relation on ids is acyclic.  In
`exDup` two records share id `a`; one of them depends on `b`, the relation
`{(b, a)}` is acyclic (`rkDup` certifies it), yet the output `[a, b]`
places `b` after `a`. -/
theorem getDependencyOrder_dup_cex :
    DRankIn rkDup exDup ∧
      (⟨"a", none, 1, none, ["b"]⟩ : Task) ∈ exDup ∧
      "b" ∈ exDup.map (fun t => t.id) ∧
      ¬((getDependencyOrder exDup).indexOf "b" <
        (getDependencyOrder exDup).indexOf "a") := by
  refine ⟨by decide, by decide, by decide, ?_⟩
  have h : getDependencyOrder exDup = ["a", "b"] := by decide
  rw [h]
  decide

/-- Claim C2, amended with the data-model uniqueness of ids: for every
input task list with distinct ids whose dependency relation restricted to
present ids is acyclic (certified by a rank function), every present
dependency of a task strictly precedes it in the output order. -/
theorem getDependencyOrder_topo (tasks : List Task) (rk : String → Nat)
    (hnd : (tasks.map (fun t => t.id)).Nodup) (hrk : DRankIn rk tasks) :
    ∀ t ∈ tasks, ∀ d ∈ t.dependencyIds, d ∈ tasks.map (fun t => t.id) →
      (getDependencyOrder tasks).indexOf d <
        (getDependencyOrder tasks).indexOf t.id := by
  intro t htm d hdm hdp
  rw [getDependencyOrder, mkIdSet_eq_self _ hnd]
  exact orderLoopA_topo tasks rk hnd hrk _ _ (le_refl _) hnd
    (fun x hx => hx) t htm (List.mem_map_of_mem _ htm) d hdm hdp

/-- Witness for the amended C2 on the spec's diamond scenario. -/
theorem getDependencyOrder_topo_witness :
    ((exScen.map (fun t => t.id)).Nodup ∧ DRankIn rkScen exScen) ∧
      (∀ t ∈ exScen, ∀ d ∈ t.dependencyIds,
        d ∈ exScen.map (fun t => t.id) →
        (getDependencyOrder exScen).indexOf d <
          (getDependencyOrder exScen).indexOf t.id) :=
  ⟨⟨by decide, by decide⟩,
   getDependencyOrder_topo exScen rkScen (by decide) (by decide)⟩

/-! ## The delete cascade -/

theorem cascadeFilter_eq_true {s : Finset String} {t : Task} :
    ((match t.parentId with
      | some p => decide (p ∈ s)
      | none => false) = true) ↔ ∃ p, t.parentId = some p ∧ p ∈ s := by
  cases hp : t.parentId with
  | none => simp
  | some p => simp

theorem mem_cascadeStep {tasks : List Task} {s : Finset String}
    {x : String} :
    x ∈ cascadeStep tasks s ↔
      x ∈ s ∨ ∃ t ∈ tasks, t.id = x ∧ ∃ p, t.parentId = some p ∧ p ∈ s := by
  rw [cascadeStep, Finset.mem_union]
  apply or_congr Iff.rfl
  rw [List.mem_toFinset, List.mem_map]
  constructor
  · rintro ⟨t, htf, rfl⟩
    obtain ⟨htm, hpred⟩ := List.mem_filter.mp htf
    exact ⟨t, htm, rfl, cascadeFilter_eq_true.mp hpred⟩
  · rintro ⟨t, htm, rfl, hex⟩
    exact ⟨t, List.mem_filter.mpr ⟨htm, cascadeFilter_eq_true.mpr hex⟩, rfl⟩

theorem subset_cascadeStep (tasks : List Task) (s : Finset String) :
    s ⊆ cascadeStep tasks s :=
  Finset.subset_union_left

theorem subset_cascadeStep_iterate (tasks : List Task) (s : Finset String) :
    ∀ k, s ⊆ (cascadeStep tasks)^[k] s := by
  intro k
  induction k with
  | zero => exact subset_refl s
  | succ k ih =>
    rw [Function.iterate_succ_apply']
    exact subset_trans ih (subset_cascadeStep tasks _)

theorem cascade_iterate_sound (tasks : List Task) (id : String) :
    ∀ (k : Nat) (x : String), x ∈ (cascadeStep tasks)^[k] {id} →
      DescendsFrom tasks id x := by
  intro k
  induction k with
  | zero =>
    intro x hx
    have : x = id := Finset.mem_singleton.mp hx
    rw [this]
    exact Relation.ReflTransGen.refl
  | succ k ih =>
    intro x hx
    rw [Function.iterate_succ_apply'] at hx
    rcases mem_cascadeStep.mp hx with h | ⟨t, htm, rfl, p, hp, hps⟩
    · exact ih x h
    · exact Relation.ReflTransGen.tail (ih p hps) ⟨t, htm, rfl, hp⟩

theorem cascade_iterate_subset_ids (tasks : List Task) (id : String) :
    ∀ k, (cascadeStep tasks)^[k] {id} ⊆
      insert id (tasks.map (fun t => t.id)).toFinset := by
  intro k
  induction k with
  | zero =>
    intro x hx
    rw [Finset.mem_singleton.mp hx]
    exact Finset.mem_insert_self id _
  | succ k ih =>
    rw [Function.iterate_succ_apply']
    intro x hx
    rcases mem_cascadeStep.mp hx with h | ⟨t, htm, rfl, _, _, _⟩
    · exact ih h
    · exact Finset.mem_insert_of_mem
        (List.mem_toFinset.mpr (List.mem_map_of_mem _ htm))

theorem cascade_iterate_card_le (tasks : List Task) (id : String) (k : Nat) :
    ((cascadeStep tasks)^[k] {id}).card ≤ tasks.length + 1 := by
  have h1 := Finset.card_le_card (cascade_iterate_subset_ids tasks id k)
  have h2 := Finset.card_insert_le id (tasks.map (fun t => t.id)).toFinset
  have h3 := List.toFinset_card_le (tasks.map (fun t => t.id))
  have h4 : (tasks.map (fun t => t.id)).length = tasks.length :=
    List.length_map tasks _
  omega

theorem cascade_fix_or_card (tasks : List Task) (id : String) :
    ∀ k, cascadeStep tasks ((cascadeStep tasks)^[k] {id}) =
        (cascadeStep tasks)^[k] {id} ∨
      k + 1 ≤ ((cascadeStep tasks)^[k] {id}).card := by
  intro k
  induction k with
  | zero =>
    right
    simp
  | succ k ih =>
    by_cases hfix : cascadeStep tasks ((cascadeStep tasks)^[k + 1] {id}) =
        (cascadeStep tasks)^[k + 1] {id}
    · exact Or.inl hfix
    · right
      rcases ih with hfixk | hcard
      · exfalso
        apply hfix
        rw [Function.iterate_succ_apply', hfixk, hfixk]
      · have hss : (cascadeStep tasks)^[k] {id} ⊂
            (cascadeStep tasks)^[k + 1] {id} := by
          rw [Function.iterate_succ_apply']
          refine ssubset_of_subset_of_ne (subset_cascadeStep tasks _) ?_
          intro heq
          apply hfix
          rw [Function.iterate_succ_apply', ← heq]
          rw [← heq]
        have := Finset.card_lt_card hss
        omega

theorem removedSet_fix (tasks : List Task) (id : String) :
    cascadeStep tasks (removedSet tasks id) = removedSet tasks id := by
  rcases cascade_fix_or_card tasks id (tasks.length + 1) with h | h
  · exact h
  · exfalso
    have := cascade_iterate_card_le tasks id (tasks.length + 1)
    omega

theorem mem_removedSet_iff (tasks : List Task) (id : String) (x : String) :
    x ∈ removedSet tasks id ↔ DescendsFrom tasks id x := by
  constructor
  · exact cascade_iterate_sound tasks id (tasks.length + 1) x
  · intro h
    induction h with
    | refl =>
      exact subset_cascadeStep_iterate tasks {id} (tasks.length + 1)
        (Finset.mem_singleton_self id)
    | tail hrtg hstep ih =>
      obtain ⟨t, htm, htid, htp⟩ := hstep
      have : _ ∈ cascadeStep tasks (removedSet tasks id) :=
        mem_cascadeStep.mpr (Or.inr ⟨t, htm, htid, _, htp, ih⟩)
      rwa [removedSet_fix] at this

/-! ## Claim C1: deletion cascades and strips dependency references -/

/-- Claim C1: when `id` is present, `deleteTask` reports success, the
surviving tasks are exactly those that are not `id` nor one of its
descendants through parent links (to any depth, matching the
`parent_id ... ON DELETE CASCADE` of the schema), and the deleted id is
stripped from every surviving task's dependency list. -/
theorem deleteTask_cascades (tasks : List Task) (id : String)
    (hpres : ∃ t ∈ tasks, t.id = id) :
    (deleteTask tasks id).2 = true ∧
    (∀ t ∈ (deleteTask tasks id).1,
      ¬ DescendsFrom tasks id t.id ∧ id ∉ t.dependencyIds) ∧
    (∀ t ∈ tasks, ¬ DescendsFrom tasks id t.id →
      { t with dependencyIds :=
          t.dependencyIds.filter (fun d => !decide (d = id)) } ∈
        (deleteTask tasks id).1) := by
  obtain ⟨t0, ht0, ht0id⟩ := hpres
  have hne : tasks.filter (fun t =>
      decide (t.id = id) || decide (t.parentId = some id)) ≠ [] := by
    apply List.ne_nil_of_mem (a := t0)
    refine List.mem_filter.mpr ⟨ht0, ?_⟩
    simp [ht0id]
  rw [deleteTask, if_neg hne]
  refine ⟨rfl, ?_, ?_⟩
  · intro t htm
    obtain ⟨t1, ht1, rfl⟩ := List.mem_map.mp htm
    obtain ⟨ht1t, ht1p⟩ := List.mem_filter.mp ht1
    have hnotin : t1.id ∉ removedSet tasks id := by simpa using ht1p
    constructor
    · intro hdesc
      exact hnotin ((mem_removedSet_iff tasks id t1.id).mpr hdesc)
    · intro hmem
      have := List.mem_filter.mp hmem
      simp at this
  · intro t htm hdesc
    refine List.mem_map.mpr ⟨t, List.mem_filter.mpr ⟨htm, ?_⟩, rfl⟩
    simpa using fun h => hdesc ((mem_removedSet_iff tasks id t.id).mp h)

/-- Witness for C1 on a three-level chain with an outside dependent. -/
theorem deleteTask_cascades_witness :
    (∃ t ∈ exDel, t.id = "r") ∧
      ((deleteTask exDel "r").2 = true ∧
       (∀ t ∈ (deleteTask exDel "r").1,
         ¬ DescendsFrom exDel "r" t.id ∧ "r" ∉ t.dependencyIds) ∧
       (∀ t ∈ exDel, ¬ DescendsFrom exDel "r" t.id →
         { t with dependencyIds :=
             t.dependencyIds.filter (fun d => !decide (d = "r")) } ∈
           (deleteTask exDel "r").1)) :=
  ⟨by decide, deleteTask_cascades exDel "r" (by decide)⟩

/-! ## Effective bounds: equations for the children fold -/

theorem foldChildren_nil (rec : String → Option Bounds)
    (mS mE : Option Int) : foldChildren rec [] mS mE = some (mS, mE) := rfl

theorem foldChildren_cons_none {rec : String → Option Bounds} {c : Task}
    (cs : List Task) (mS mE : Option Int) (h : rec c.id = none) :
    foldChildren rec (c :: cs) mS mE = none := by
  simp [foldChildren, h]

theorem foldChildren_cons_skip {rec : String → Option Bounds} {c : Task}
    {b : Bounds} (cs : List Task) (mS mE : Option Int)
    (h : rec c.id = some b) (hs : b.startDate = none) :
    foldChildren rec (c :: cs) mS mE = foldChildren rec cs mS mE := by
  simp [foldChildren, h, hs]

theorem foldChildren_cons_upd {rec : String → Option Bounds} {c : Task}
    {b : Bounds} {s : Int} (cs : List Task) (mS mE : Option Int)
    (h : rec c.id = some b) (hs : b.startDate = some s) :
    foldChildren rec (c :: cs) mS mE =
      foldChildren rec cs (some (updMin mS s))
        (some (updMax mE (s + b.duration))) := by
  simp [foldChildren, h, hs]

theorem updMin_le_start (mS : Option Int) (s : Int) : updMin mS s ≤ s := by
  cases mS with
  | none => exact le_refl s
  | some m => exact min_le_right m s

theorem updMin_le_acc (mS : Option Int) (s a : Int) (h : mS = some a) :
    updMin mS s ≤ a := by
  rw [h]
  exact min_le_left a s

theorem updMin_attain (mS : Option Int) (s : Int) :
    mS = some (updMin mS s) ∨ updMin mS s = s := by
  cases mS with
  | none => exact Or.inr rfl
  | some m =>
    rcases le_total m s with h | h
    · exact Or.inl (by simp [updMin, min_eq_left h])
    · exact Or.inr (by simp [updMin, min_eq_right h])

theorem updMax_ge_end (mE : Option Int) (e : Int) : e ≤ updMax mE e := by
  cases mE with
  | none => exact le_refl e
  | some m => exact le_max_right m e

theorem updMax_ge_acc (mE : Option Int) (e a : Int) (h : mE = some a) :
    a ≤ updMax mE e := by
  rw [h]
  exact le_max_left a e

theorem updMax_attain (mE : Option Int) (e : Int) :
    mE = some (updMax mE e) ∨ updMax mE e = e := by
  cases mE with
  | none => exact Or.inr rfl
  | some m =>
    rcases le_total m e with h | h
    · exact Or.inr (by simp [updMax, max_eq_right h])
    · exact Or.inl (by simp [updMax, max_eq_left h])

theorem foldChildren_isSome (rec : String → Option Bounds) :
    ∀ (children : List Task), (∀ c ∈ children, rec c.id ≠ none) →
      ∀ mS mE, foldChildren rec children mS mE ≠ none := by
  intro children
  induction children with
  | nil => intro _ mS mE; rw [foldChildren_nil]; simp
  | cons c cs ih =>
    intro h mS mE
    cases hrec : rec c.id with
    | none => exact absurd hrec (h c (List.mem_cons_self c cs))
    | some b =>
      cases hsb : b.startDate with
      | none =>
        rw [foldChildren_cons_skip cs mS mE hrec hsb]
        exact ih (fun c hc => h c (List.mem_cons_of_mem _ hc)) mS mE
      | some s =>
        rw [foldChildren_cons_upd cs mS mE hrec hsb]
        exact ih (fun c hc => h c (List.mem_cons_of_mem _ hc)) _ _

theorem foldChildren_mono (rec₁ rec₂ : String → Option Bounds)
    (hrec : ∀ cid b, rec₁ cid = some b → rec₂ cid = some b) :
    ∀ (children : List Task) (mS mE : Option Int)
      (pr : Option Int × Option Int),
      foldChildren rec₁ children mS mE = some pr →
      foldChildren rec₂ children mS mE = some pr := by
  intro children
  induction children with
  | nil => intro mS mE pr h; exact h
  | cons c cs ih =>
    intro mS mE pr h
    cases hr1 : rec₁ c.id with
    | none => rw [foldChildren_cons_none cs mS mE hr1] at h; cases h
    | some b =>
      cases hsb : b.startDate with
      | none =>
        rw [foldChildren_cons_skip cs mS mE hr1 hsb] at h
        rw [foldChildren_cons_skip cs mS mE (hrec c.id b hr1) hsb]
        exact ih mS mE pr h
      | some s =>
        rw [foldChildren_cons_upd cs mS mE hr1 hsb] at h
        rw [foldChildren_cons_upd cs mS mE (hrec c.id b hr1) hsb]
        exact ih _ _ pr h

theorem foldMin_some_of_acc_some (rec : String → Option Bounds) :
    ∀ (children : List Task) (a : Int) (mE : Option Int)
      (pr : Option Int × Option Int),
      foldChildren rec children (some a) mE = some pr →
      ∃ v, pr.1 = some v := by
  intro children
  induction children with
  | nil =>
    intro a mE pr h
    rw [foldChildren_nil] at h
    cases h
    exact ⟨a, rfl⟩
  | cons c cs ih =>
    intro a mE pr h
    cases hrec : rec c.id with
    | none => rw [foldChildren_cons_none cs _ mE hrec] at h; cases h
    | some b =>
      cases hsb : b.startDate with
      | none =>
        rw [foldChildren_cons_skip cs _ mE hrec hsb] at h
        exact ih a mE pr h
      | some s =>
        rw [foldChildren_cons_upd cs _ mE hrec hsb] at h
        exact ih _ _ pr h

theorem foldMax_some_of_acc_some (rec : String → Option Bounds) :
    ∀ (children : List Task) (mS : Option Int) (a : Int)
      (pr : Option Int × Option Int),
      foldChildren rec children mS (some a) = some pr →
      ∃ v, pr.2 = some v := by
  intro children
  induction children with
  | nil =>
    intro mS a pr h
    rw [foldChildren_nil] at h
    cases h
    exact ⟨a, rfl⟩
  | cons c cs ih =>
    intro mS a pr h
    cases hrec : rec c.id with
    | none => rw [foldChildren_cons_none cs mS _ hrec] at h; cases h
    | some b =>
      cases hsb : b.startDate with
      | none =>
        rw [foldChildren_cons_skip cs mS _ hrec hsb] at h
        exact ih mS a pr h
      | some s =>
        rw [foldChildren_cons_upd cs mS _ hrec hsb] at h
        exact ih _ _ pr h

theorem foldMin_none_iff (rec : String → Option Bounds) :
    ∀ (children : List Task) (mS mE : Option Int)
      (pr : Option Int × Option Int),
      foldChildren rec children mS mE = some pr →
      (pr.1 = none ↔ mS = none ∧
        ∀ c ∈ children, ∀ b, rec c.id = some b → b.startDate = none) := by
  intro children
  induction children with
  | nil =>
    intro mS mE pr h
    rw [foldChildren_nil] at h
    cases h
    simp
  | cons c cs ih =>
    intro mS mE pr h
    cases hrec : rec c.id with
    | none => rw [foldChildren_cons_none cs mS mE hrec] at h; cases h
    | some b =>
      cases hsb : b.startDate with
      | none =>
        rw [foldChildren_cons_skip cs mS mE hrec hsb] at h
        rw [ih mS mE pr h]
        constructor
        · rintro ⟨h1, h2⟩
          refine ⟨h1, ?_⟩
          intro c2 hc2 b2 hb2
          rcases List.mem_cons.mp hc2 with rfl | hc2
          · rw [hrec] at hb2
            cases hb2
            exact hsb
          · exact h2 c2 hc2 b2 hb2
        · rintro ⟨h1, h2⟩
          exact ⟨h1, fun c2 hc2 b2 hb2 =>
            h2 c2 (List.mem_cons_of_mem c hc2) b2 hb2⟩
      | some s =>
        rw [foldChildren_cons_upd cs mS mE hrec hsb] at h
        obtain ⟨v, hv⟩ := foldMin_some_of_acc_some rec cs _ _ pr h
        constructor
        · intro h0
          rw [hv] at h0
          cases h0
        · rintro ⟨h1, h2⟩
          have hx := h2 c (List.mem_cons_self c cs) b hrec
          rw [hsb] at hx
          cases hx

theorem foldMax_none_iff (rec : String → Option Bounds) :
    ∀ (children : List Task) (mS mE : Option Int)
      (pr : Option Int × Option Int),
      foldChildren rec children mS mE = some pr →
      (pr.2 = none ↔ mE = none ∧
        ∀ c ∈ children, ∀ b, rec c.id = some b → b.startDate = none) := by
  intro children
  induction children with
  | nil =>
    intro mS mE pr h
    rw [foldChildren_nil] at h
    cases h
    simp
  | cons c cs ih =>
    intro mS mE pr h
    cases hrec : rec c.id with
    | none => rw [foldChildren_cons_none cs mS mE hrec] at h; cases h
    | some b =>
      cases hsb : b.startDate with
      | none =>
        rw [foldChildren_cons_skip cs mS mE hrec hsb] at h
        rw [ih mS mE pr h]
        constructor
        · rintro ⟨h1, h2⟩
          refine ⟨h1, ?_⟩
          intro c2 hc2 b2 hb2
          rcases List.mem_cons.mp hc2 with rfl | hc2
          · rw [hrec] at hb2
            cases hb2
            exact hsb
          · exact h2 c2 hc2 b2 hb2
        · rintro ⟨h1, h2⟩
          exact ⟨h1, fun c2 hc2 b2 hb2 =>
            h2 c2 (List.mem_cons_of_mem c hc2) b2 hb2⟩
      | some s =>
        rw [foldChildren_cons_upd cs mS mE hrec hsb] at h
        obtain ⟨v, hv⟩ := foldMax_some_of_acc_some rec cs _ _ pr h
        constructor
        · intro h0
          rw [hv] at h0
          cases h0
        · rintro ⟨h1, h2⟩
          have hx := h2 c (List.mem_cons_self c cs) b hrec
          rw [hsb] at hx
          cases hx

theorem foldMin_attain (rec : String → Option Bounds) :
    ∀ (children : List Task) (mS mE : Option Int)
      (pr : Option Int × Option Int),
      foldChildren rec children mS mE = some pr →
      ∀ m, pr.1 = some m →
        mS = some m ∨ ∃ c ∈ children, ∃ b, rec c.id = some b ∧
          b.startDate = some m := by
  intro children
  induction children with
  | nil =>
    intro mS mE pr h m hm
    rw [foldChildren_nil] at h
    cases h
    exact Or.inl hm
  | cons c cs ih =>
    intro mS mE pr h m hm
    cases hrec : rec c.id with
    | none => rw [foldChildren_cons_none cs mS mE hrec] at h; cases h
    | some b =>
      cases hsb : b.startDate with
      | none =>
        rw [foldChildren_cons_skip cs mS mE hrec hsb] at h
        rcases ih mS mE pr h m hm with h1 | ⟨c2, hc2, b2, hb2, hs2⟩
        · exact Or.inl h1
        · exact Or.inr ⟨c2, List.mem_cons_of_mem c hc2, b2, hb2, hs2⟩
      | some s =>
        rw [foldChildren_cons_upd cs mS mE hrec hsb] at h
        rcases ih _ _ pr h m hm with h1 | ⟨c2, hc2, b2, hb2, hs2⟩
        · cases h1
          rcases updMin_attain mS s with h2 | h2
          · exact Or.inl h2
          · rw [h2]
            exact Or.inr ⟨c, List.mem_cons_self c cs, b, hrec,
              by rw [hsb]⟩
        · exact Or.inr ⟨c2, List.mem_cons_of_mem c hc2, b2, hb2, hs2⟩

theorem foldMax_attain (rec : String → Option Bounds) :
    ∀ (children : List Task) (mS mE : Option Int)
      (pr : Option Int × Option Int),
      foldChildren rec children mS mE = some pr →
      ∀ e, pr.2 = some e →
        mE = some e ∨ ∃ c ∈ children, ∃ b, rec c.id = some b ∧
          ∃ s, b.startDate = some s ∧ e = s + b.duration := by
  intro children
  induction children with
  | nil =>
    intro mS mE pr h e he
    rw [foldChildren_nil] at h
    cases h
    exact Or.inl he
  | cons c cs ih =>
    intro mS mE pr h e he
    cases hrec : rec c.id with
    | none => rw [foldChildren_cons_none cs mS mE hrec] at h; cases h
    | some b =>
      cases hsb : b.startDate with
      | none =>
        rw [foldChildren_cons_skip cs mS mE hrec hsb] at h
        rcases ih mS mE pr h e he with h1 | ⟨c2, hc2, b2, hb2, hs2⟩
        · exact Or.inl h1
        · exact Or.inr ⟨c2, List.mem_cons_of_mem c hc2, b2, hb2, hs2⟩
      | some s =>
        rw [foldChildren_cons_upd cs mS mE hrec hsb] at h
        rcases ih _ _ pr h e he with h1 | ⟨c2, hc2, b2, hb2, hs2⟩
        · cases h1
          rcases updMax_attain mE (s + b.duration) with h2 | h2
          · exact Or.inl h2
          · rw [h2]
            exact Or.inr ⟨c, List.mem_cons_self c cs, b, hrec, s, hsb, rfl⟩
        · exact Or.inr ⟨c2, List.mem_cons_of_mem c hc2, b2, hb2, hs2⟩

theorem foldMin_lb (rec : String → Option Bounds) :
    ∀ (children : List Task) (mS mE : Option Int)
      (pr : Option Int × Option Int),
      foldChildren rec children mS mE = some pr →
      ∀ m, pr.1 = some m →
        (∀ a, mS = some a → m ≤ a) ∧
        (∀ c ∈ children, ∀ b, rec c.id = some b →
          ∀ s, b.startDate = some s → m ≤ s) := by
  intro children
  induction children with
  | nil =>
    intro mS mE pr h m hm
    rw [foldChildren_nil] at h
    cases h
    replace hm : mS = some m := hm
    refine ⟨?_, ?_⟩
    · intro a ha
      rw [hm] at ha
      cases ha
      exact le_refl m
    · intro c hc
      cases hc
  | cons c cs ih =>
    intro mS mE pr h m hm
    cases hrec : rec c.id with
    | none => rw [foldChildren_cons_none cs mS mE hrec] at h; cases h
    | some b =>
      cases hsb : b.startDate with
      | none =>
        rw [foldChildren_cons_skip cs mS mE hrec hsb] at h
        obtain ⟨hacc, hchild⟩ := ih mS mE pr h m hm
        refine ⟨hacc, ?_⟩
        intro c2 hc2 b2 hb2 s2 hs2
        rcases List.mem_cons.mp hc2 with rfl | hc2
        · rw [hrec] at hb2
          cases hb2
          rw [hsb] at hs2
          cases hs2
        · exact hchild c2 hc2 b2 hb2 s2 hs2
      | some s =>
        rw [foldChildren_cons_upd cs mS mE hrec hsb] at h
        obtain ⟨hacc, hchild⟩ := ih _ _ pr h m hm
        have hmu : m ≤ updMin mS s := hacc _ rfl
        refine ⟨?_, ?_⟩
        · intro a ha
          exact le_trans hmu (updMin_le_acc mS s a ha)
        · intro c2 hc2 b2 hb2 s2 hs2
          rcases List.mem_cons.mp hc2 with rfl | hc2
          · rw [hrec] at hb2
            cases hb2
            rw [hsb] at hs2
            cases hs2
            exact le_trans hmu (updMin_le_start mS s)
          · exact hchild c2 hc2 b2 hb2 s2 hs2

theorem foldMax_ub (rec : String → Option Bounds) :
    ∀ (children : List Task) (mS mE : Option Int)
      (pr : Option Int × Option Int),
      foldChildren rec children mS mE = some pr →
      ∀ e, pr.2 = some e →
        (∀ a, mE = some a → a ≤ e) ∧
        (∀ c ∈ children, ∀ b, rec c.id = some b →
          ∀ s, b.startDate = some s → s + b.duration ≤ e) := by
  intro children
  induction children with
  | nil =>
    intro mS mE pr h e he
    rw [foldChildren_nil] at h
    cases h
    replace he : mE = some e := he
    refine ⟨?_, ?_⟩
    · intro a ha
      rw [he] at ha
      cases ha
      exact le_refl e
    · intro c hc
      cases hc
  | cons c cs ih =>
    intro mS mE pr h e he
    cases hrec : rec c.id with
    | none => rw [foldChildren_cons_none cs mS mE hrec] at h; cases h
    | some b =>
      cases hsb : b.startDate with
      | none =>
        rw [foldChildren_cons_skip cs mS mE hrec hsb] at h
        obtain ⟨hacc, hchild⟩ := ih mS mE pr h e he
        refine ⟨hacc, ?_⟩
        intro c2 hc2 b2 hb2 s2 hs2
        rcases List.mem_cons.mp hc2 with rfl | hc2
        · rw [hrec] at hb2
          cases hb2
          rw [hsb] at hs2
          cases hs2
        · exact hchild c2 hc2 b2 hb2 s2 hs2
      | some s =>
        rw [foldChildren_cons_upd cs mS mE hrec hsb] at h
        obtain ⟨hacc, hchild⟩ := ih _ _ pr h e he
        have hmu : updMax mE (s + b.duration) ≤ e := hacc _ rfl
        refine ⟨?_, ?_⟩
        · intro a ha
          exact le_trans (updMax_ge_acc mE (s + b.duration) a ha) hmu
        · intro c2 hc2 b2 hb2 s2 hs2
          rcases List.mem_cons.mp hc2 with rfl | hc2
          · rw [hrec] at hb2
            cases hb2
            rw [hsb] at hs2
            cases hs2
            exact le_trans (updMax_ge_end mE _) hmu
          · exact hchild c2 hc2 b2 hb2 s2 hs2


/-! ## Effective bounds: totality, monotonicity, duration bound -/

theorem geb_succ (tasks : List Task) (n : Nat) (x : String) :
    getEffectiveTaskBounds tasks (n + 1) x =
      match tasks.find? (fun t => decide (t.id = x)) with
      | none => some ⟨none, 0⟩
      | some task =>
        if childrenOf tasks x = [] then
          some ⟨task.startDate, task.duration⟩
        else
          (foldChildren (fun cid => getEffectiveTaskBounds tasks n cid)
              (childrenOf tasks x) none none).map (combine task) := rfl

theorem geb_ne_none (tasks : List Task) (rk : String → Nat)
    (hp : PRank rk tasks) :
    ∀ (n : Nat) (x : String),
      maxRank rk tasks + 2 ≤ n + min (rk x) (maxRank rk tasks + 1) →
      getEffectiveTaskBounds tasks n x ≠ none := by
  intro n
  induction n with
  | zero =>
    intro x hn
    exfalso
    have h1 := Nat.min_le_right (rk x) (maxRank rk tasks + 1)
    omega
  | succ n ih =>
    intro x hn
    rw [geb_succ]
    cases hf : tasks.find? (fun t => decide (t.id = x)) with
    | none => simp
    | some task =>
      show (if childrenOf tasks x = [] then
              some (⟨task.startDate, task.duration⟩ : Bounds)
            else
              (foldChildren (fun cid => getEffectiveTaskBounds tasks n cid)
                  (childrenOf tasks x) none none).map (combine task)) ≠ none
      by_cases hch : childrenOf tasks x = []
      · rw [if_pos hch]; simp
      · rw [if_neg hch]
        have htotal : ∀ c ∈ childrenOf tasks x,
            getEffectiveTaskBounds tasks n c.id ≠ none := by
          intro c hc
          obtain ⟨hct, hcp⟩ := mem_childrenOf.mp hc
          have h1 : rk x < rk c.id := hp c hct x hcp
          have h2 : rk c.id ≤ maxRank rk tasks :=
            rank_le_maxRank rk tasks c hct
          apply ih
          have h3 := Nat.min_le_left (rk x) (maxRank rk tasks + 1)
          have h4 : min (rk c.id) (maxRank rk tasks + 1) = rk c.id :=
            Nat.min_eq_left (by omega)
          omega
        rw [Ne, Option.map_eq_none']
        exact foldChildren_isSome _ _ htotal none none

theorem geb_mono (tasks : List Task) :
    ∀ (n m : Nat), n ≤ m → ∀ (x : String) (b : Bounds),
      getEffectiveTaskBounds tasks n x = some b →
      getEffectiveTaskBounds tasks m x = some b := by
  intro n
  induction n with
  | zero => intro m _ x b h; cases h
  | succ n ih =>
    intro m hm x b h
    obtain ⟨m2, rfl⟩ : ∃ m2, m = m2 + 1 := ⟨m - 1, by omega⟩
    rw [geb_succ] at h
    rw [geb_succ]
    cases hf : tasks.find? (fun t => decide (t.id = x)) with
    | none =>
      rw [hf] at h
      replace h : some (⟨none, 0⟩ : Bounds) = some b := h
      show some (⟨none, 0⟩ : Bounds) = some b
      exact h
    | some task =>
      rw [hf] at h
      replace h : (if childrenOf tasks x = [] then
            some (⟨task.startDate, task.duration⟩ : Bounds)
          else
            (foldChildren (fun cid => getEffectiveTaskBounds tasks n cid)
                (childrenOf tasks x) none none).map (combine task)) =
          some b := h
      show (if childrenOf tasks x = [] then
              some (⟨task.startDate, task.duration⟩ : Bounds)
            else
              (foldChildren (fun cid => getEffectiveTaskBounds tasks m2 cid)
                  (childrenOf tasks x) none none).map (combine task)) =
          some b
      by_cases hch : childrenOf tasks x = []
      · rw [if_pos hch] at h ⊢
        exact h
      · rw [if_neg hch] at h ⊢
        obtain ⟨pr, hpr, hcomb⟩ := Option.map_eq_some'.mp h
        rw [foldChildren_mono _ _
          (fun cid b2 hb2 => ih m2 (by omega) cid b2 hb2) _ none none pr hpr]
        rw [Option.map_some']
        rw [hcomb]

theorem geb_duration_pos (tasks : List Task)
    (hdur : ∀ t ∈ tasks, 1 ≤ t.duration) (x : String)
    (hx : ∃ t ∈ tasks, t.id = x) :
    ∀ (n : Nat) (b : Bounds),
      getEffectiveTaskBounds tasks n x = some b → 1 ≤ b.duration := by
  intro n
  cases n with
  | zero => intro b h; cases h
  | succ n =>
    intro b h
    rw [geb_succ] at h
    cases hf : tasks.find? (fun t => decide (t.id = x)) with
    | none =>
      exfalso
      obtain ⟨t, ht, htid⟩ := hx
      have hs : (tasks.find? (fun t => decide (t.id = x))).isSome :=
        List.find?_isSome.mpr ⟨t, ht, by simpa using htid⟩
      rw [hf] at hs
      cases hs
    | some task =>
      have htm : task ∈ tasks := List.mem_of_find?_eq_some hf
      rw [hf] at h
      replace h : (if childrenOf tasks x = [] then
            some (⟨task.startDate, task.duration⟩ : Bounds)
          else
            (foldChildren (fun cid => getEffectiveTaskBounds tasks n cid)
                (childrenOf tasks x) none none).map (combine task)) =
          some b := h
      by_cases hch : childrenOf tasks x = []
      · rw [if_pos hch] at h
        cases h
        exact hdur task htm
      · rw [if_neg hch] at h
        obtain ⟨pr, hpr, hcomb⟩ := Option.map_eq_some'.mp h
        obtain ⟨a, e⟩ := pr
        cases a with
        | none =>
          cases e with
          | none =>
            have hb : b = ⟨task.startDate, task.duration⟩ := by
              rw [← hcomb]
              rfl
            rw [hb]
            exact hdur task htm
          | some e =>
            have hb : b = ⟨task.startDate, task.duration⟩ := by
              rw [← hcomb]
              rfl
            rw [hb]
            exact hdur task htm
        | some m =>
          cases e with
          | none =>
            have hb : b = ⟨task.startDate, task.duration⟩ := by
              rw [← hcomb]
              rfl
            rw [hb]
            exact hdur task htm
          | some e =>
            have hb : b = ⟨some m, max 1 (e - m)⟩ := by
              rw [← hcomb]
              rfl
            rw [hb]
            exact le_max_left 1 _

theorem effStart_eq (tasks : List Task) (n : Nat) (x : String) (b : Bounds)
    (h : getEffectiveTaskBounds tasks n x = some b) :
    effStart tasks n x = b.startDate := by
  rw [effStart, h]

theorem effEnd_eq (tasks : List Task) (n : Nat) (x : String) (s d : Int)
    (h : getEffectiveTaskBounds tasks n x = some ⟨some s, d⟩) :
    effEnd tasks n x = some (s + d) := by
  rw [effEnd, h]

theorem effStart_some (tasks : List Task) (n : Nat) (x : String) (v : Int)
    (h : effStart tasks n x = some v) :
    ∃ d, getEffectiveTaskBounds tasks n x = some ⟨some v, d⟩ := by
  rw [effStart] at h
  cases hg : getEffectiveTaskBounds tasks n x with
  | none =>
    rw [hg] at h
    replace h : (none : Option Int) = some v := h
    cases h
  | some b =>
    rw [hg] at h
    obtain ⟨bs, bd⟩ := b
    replace h : bs = some v := h
    exact ⟨bd, by rw [h]⟩

theorem effEnd_some (tasks : List Task) (n : Nat) (x : String) (v : Int)
    (h : effEnd tasks n x = some v) :
    ∃ s d, getEffectiveTaskBounds tasks n x = some ⟨some s, d⟩ ∧
      v = s + d := by
  rw [effEnd] at h
  cases hg : getEffectiveTaskBounds tasks n x with
  | none =>
    rw [hg] at h
    replace h : (none : Option Int) = some v := h
    cases h
  | some b =>
    rw [hg] at h
    obtain ⟨bs, bd⟩ := b
    cases bs with
    | none =>
      replace h : (none : Option Int) = some v := h
      cases h
    | some s =>
      replace h : some (s + bd) = some v := h
      cases h
      exact ⟨s, bd, rfl, rfl⟩

theorem geb_agree (tasks : List Task) (rk : String → Nat)
    (hp : PRank rk tasks) (n₁ n₂ : Nat) (x : String)
    (h1 : maxRank rk tasks + 2 ≤ n₁ + min (rk x) (maxRank rk tasks + 1))
    (h2 : n₁ ≤ n₂) :
    getEffectiveTaskBounds tasks n₂ x = getEffectiveTaskBounds tasks n₁ x := by
  cases hg : getEffectiveTaskBounds tasks n₁ x with
  | none => exact absurd hg (geb_ne_none tasks rk hp n₁ x h1)
  | some b => exact geb_mono tasks n₁ n₂ h2 x b hg

/-- Along a parent-descent chain the effective bounds of the top task
absorb those of every descendant: the top effective start is at most the
descendant's and the top effective end is at least the descendant's. -/
theorem geb_absorb (tasks : List Task) (rk : String → Nat)
    (hp : PRank rk tasks) (n : Nat)
    (hn : maxRank rk tasks + 3 ≤ n) :
    ∀ (x y : String), Relation.ReflTransGen (ChildStep tasks) x y →
      (∃ t ∈ tasks, t.id = x) →
      ∀ (v dv : Int),
        getEffectiveTaskBounds tasks n y = some ⟨some v, dv⟩ →
        ∃ m dm, getEffectiveTaskBounds tasks n x = some ⟨some m, dm⟩ ∧
          m ≤ v ∧ v + dv ≤ m + dm := by
  intro x y hrtg
  induction hrtg using Relation.ReflTransGen.head_induction_on with
  | refl =>
    intro _ v dv hy
    exact ⟨v, dv, hy, le_refl v, le_refl (v + dv)⟩
  | @head a c hstep hrest ih =>
    intro hax v dv hy
    obtain ⟨t, htm, htid, htp⟩ := hstep
    have hcmem : t ∈ childrenOf tasks a := mem_childrenOf.mpr ⟨htm, htp⟩
    obtain ⟨mc, dc, hgc, hmcv, hvdc⟩ := ih ⟨t, htm, htid⟩ v dv hy
    obtain ⟨n2, rfl⟩ : ∃ n2, n = n2 + 1 := ⟨n - 1, by omega⟩
    rw [geb_succ]
    cases hf : tasks.find? (fun t => decide (t.id = a)) with
    | none =>
      exfalso
      obtain ⟨t0, ht0, ht0id⟩ := hax
      have hs : (tasks.find? (fun t => decide (t.id = a))).isSome :=
        List.find?_isSome.mpr ⟨t0, ht0, by simpa using ht0id⟩
      rw [hf] at hs
      cases hs
    | some task =>
      show ∃ m dm, (if childrenOf tasks a = [] then
            some (⟨task.startDate, task.duration⟩ : Bounds)
          else
            (foldChildren (fun cid => getEffectiveTaskBounds tasks n2 cid)
                (childrenOf tasks a) none none).map (combine task)) =
          some ⟨some m, dm⟩ ∧ m ≤ v ∧ v + dv ≤ m + dm
      have hchne : childrenOf tasks a ≠ [] := List.ne_nil_of_mem hcmem
      rw [if_neg hchne]
      have htotal : ∀ c2 ∈ childrenOf tasks a,
          getEffectiveTaskBounds tasks n2 c2.id ≠ none := by
        intro c2 hc2
        apply geb_ne_none tasks rk hp
        have := Nat.zero_le (min (rk c2.id) (maxRank rk tasks + 1))
        omega
      have hagree : getEffectiveTaskBounds tasks n2 t.id =
          some ⟨some mc, dc⟩ := by
        have h1 : maxRank rk tasks + 2 ≤
            n2 + min (rk t.id) (maxRank rk tasks + 1) := by
          have := Nat.zero_le (min (rk t.id) (maxRank rk tasks + 1))
          omega
        have hag := geb_agree tasks rk hp n2 (n2 + 1) t.id h1 (by omega)
        rw [htid] at hag
        rw [htid, ← hag]
        exact hgc
      cases hfold : foldChildren
          (fun cid => getEffectiveTaskBounds tasks n2 cid)
          (childrenOf tasks a) none none with
      | none => exact absurd hfold (foldChildren_isSome _ _ htotal none none)
      | some pr =>
        have hm1 : ∃ m, pr.1 = some m := by
          cases hpr1 : pr.1 with
          | some m => exact ⟨m, rfl⟩
          | none =>
            exfalso
            have hiff := foldMin_none_iff _ _ _ _ _ hfold
            have hnone := (hiff.mp hpr1).2 t hcmem ⟨some mc, dc⟩ hagree
            cases hnone
        obtain ⟨m, hm⟩ := hm1
        have he1 : ∃ e, pr.2 = some e := by
          cases hpr2 : pr.2 with
          | some e => exact ⟨e, rfl⟩
          | none =>
            exfalso
            have hiff := foldMax_none_iff _ _ _ _ _ hfold
            have hnone := (hiff.mp hpr2).2 t hcmem ⟨some mc, dc⟩ hagree
            cases hnone
        obtain ⟨e, he⟩ := he1
        have hlb := foldMin_lb _ _ _ _ _ hfold m hm
        have hub := foldMax_ub _ _ _ _ _ hfold e he
        have hm_le_mc : m ≤ mc := hlb.2 t hcmem ⟨some mc, dc⟩ hagree mc rfl
        have hend_le : mc + dc ≤ e :=
          hub.2 t hcmem ⟨some mc, dc⟩ hagree mc rfl
        refine ⟨m, max 1 (e - m), ?_, le_trans hm_le_mc hmcv, ?_⟩
        · have hpr : pr = (some m, some e) := Prod.ext hm he
          rw [hpr, Option.map_some']
          rfl
        · have h1 : e ≤ m + max 1 (e - m) := by
            have := le_max_right (1 : Int) (e - m)
            omega
          have h2 : v + dv ≤ e := le_trans hvdc hend_le
          omega

/-! ## Claim C8: the effective-bounds contract -/

/-- Claim C8: on a snapshot satisfying the data-model invariants (acyclic
parent relation, durations at least 1), for every present task id: a task
without children gets its own stored fields; a task with children but no
child effective start falls back to its own stored fields; and a task with
children, at least one of which has an effective start, spans from the
least effective start among all its descendants to the greatest effective
end (`start + duration`) among all its descendants. -/
theorem getEffectiveTaskBounds_spec (tasks : List Task) (rk : String → Nat)
    (hp : PRank rk tasks) (hdur : ∀ t ∈ tasks, 1 ≤ t.duration)
    (taskId : String) (task : Task)
    (hfind : tasks.find? (fun t => decide (t.id = taskId)) = some task)
    (n : Nat) (hn : maxRank rk tasks + 3 ≤ n) :
    (childrenOf tasks taskId = [] →
      getEffectiveTaskBounds tasks n taskId =
        some ⟨task.startDate, task.duration⟩) ∧
    (childrenOf tasks taskId ≠ [] →
      (∀ c ∈ childrenOf tasks taskId, effStart tasks n c.id = none) →
      getEffectiveTaskBounds tasks n taskId =
        some ⟨task.startDate, task.duration⟩) ∧
    (childrenOf tasks taskId ≠ [] →
      (∃ c ∈ childrenOf tasks taskId, effStart tasks n c.id ≠ none) →
      ∃ m e, getEffectiveTaskBounds tasks n taskId =
          some ⟨some m, e - m⟩ ∧
        IsLeast {v | ∃ x, Relation.TransGen (ChildStep tasks) taskId x ∧
          effStart tasks n x = some v} m ∧
        IsGreatest {v | ∃ x, Relation.TransGen (ChildStep tasks) taskId x ∧
          effEnd tasks n x = some v} e) := by
  obtain ⟨n2, rfl⟩ : ∃ n2, n = n2 + 1 := ⟨n - 1, by omega⟩
  have htotal : ∀ c2 ∈ childrenOf tasks taskId,
      getEffectiveTaskBounds tasks n2 c2.id ≠ none := by
    intro c2 _
    apply geb_ne_none tasks rk hp
    have := Nat.zero_le (min (rk c2.id) (maxRank rk tasks + 1))
    omega
  have hagree : ∀ c2 : Task, c2 ∈ tasks →
      getEffectiveTaskBounds tasks (n2 + 1) c2.id =
        getEffectiveTaskBounds tasks n2 c2.id := by
    intro c2 _
    apply geb_agree tasks rk hp n2 (n2 + 1) c2.id ?_ (by omega)
    have := Nat.zero_le (min (rk c2.id) (maxRank rk tasks + 1))
    omega
  refine ⟨?_, ?_, ?_⟩
  · intro hch
    rw [geb_succ, hfind]
    show (if childrenOf tasks taskId = [] then
            some (⟨task.startDate, task.duration⟩ : Bounds)
          else
            (foldChildren (fun cid => getEffectiveTaskBounds tasks n2 cid)
                (childrenOf tasks taskId) none none).map (combine task)) =
        some ⟨task.startDate, task.duration⟩
    rw [if_pos hch]
  · intro hch hall
    rw [geb_succ, hfind]
    show (if childrenOf tasks taskId = [] then
            some (⟨task.startDate, task.duration⟩ : Bounds)
          else
            (foldChildren (fun cid => getEffectiveTaskBounds tasks n2 cid)
                (childrenOf tasks taskId) none none).map (combine task)) =
        some ⟨task.startDate, task.duration⟩
    rw [if_neg hch]
    cases hfold : foldChildren
        (fun cid => getEffectiveTaskBounds tasks n2 cid)
        (childrenOf tasks taskId) none none with
    | none => exact absurd hfold (foldChildren_isSome _ _ htotal none none)
    | some pr =>
      have hallstarts : ∀ c2 ∈ childrenOf tasks taskId, ∀ b,
          getEffectiveTaskBounds tasks n2 c2.id = some b →
            b.startDate = none := by
        intro c2 hc2 b hb
        have hup : getEffectiveTaskBounds tasks (n2 + 1) c2.id = some b :=
          geb_mono tasks n2 (n2 + 1) (by omega) _ _ hb
        have hes := hall c2 hc2
        rw [effStart, hup] at hes
        exact hes
      have hpr1 : pr.1 = none :=
        (foldMin_none_iff _ _ _ _ _ hfold).mpr ⟨rfl, hallstarts⟩
      have hpr2 : pr.2 = none :=
        (foldMax_none_iff _ _ _ _ _ hfold).mpr ⟨rfl, hallstarts⟩
      have hpr : pr = (none, none) := Prod.ext hpr1 hpr2
      rw [hpr, Option.map_some']
      rfl
  · intro hch hex
    obtain ⟨c0, hc0, hc0ne⟩ := hex
    cases hes0 : effStart tasks (n2 + 1) c0.id with
    | none => exact absurd hes0 hc0ne
    | some s0 =>
      obtain ⟨d0, hgeb0⟩ := effStart_some _ _ _ _ hes0
      have hc0t : c0 ∈ tasks := (mem_childrenOf.mp hc0).1
      have hgeb0n2 : getEffectiveTaskBounds tasks n2 c0.id =
          some ⟨some s0, d0⟩ := by
        rw [← hagree c0 hc0t]
        exact hgeb0
      rw [geb_succ, hfind]
      show ∃ m e, (if childrenOf tasks taskId = [] then
              some (⟨task.startDate, task.duration⟩ : Bounds)
            else
              (foldChildren (fun cid => getEffectiveTaskBounds tasks n2 cid)
                  (childrenOf tasks taskId) none none).map (combine task)) =
          some ⟨some m, e - m⟩ ∧ _
      rw [if_neg hch]
      cases hfold : foldChildren
          (fun cid => getEffectiveTaskBounds tasks n2 cid)
          (childrenOf tasks taskId) none none with
      | none => exact absurd hfold (foldChildren_isSome _ _ htotal none none)
      | some pr =>
        have hm1 : ∃ m, pr.1 = some m := by
          cases hpr1 : pr.1 with
          | some m => exact ⟨m, rfl⟩
          | none =>
            exfalso
            have hnone := ((foldMin_none_iff _ _ _ _ _ hfold).mp hpr1).2
              c0 hc0 ⟨some s0, d0⟩ hgeb0n2
            cases hnone
        obtain ⟨m, hm⟩ := hm1
        have he1 : ∃ e, pr.2 = some e := by
          cases hpr2 : pr.2 with
          | some e => exact ⟨e, rfl⟩
          | none =>
            exfalso
            have hnone := ((foldMax_none_iff _ _ _ _ _ hfold).mp hpr2).2
              c0 hc0 ⟨some s0, d0⟩ hgeb0n2
            cases hnone
        obtain ⟨e, he⟩ := he1
        have hlb := foldMin_lb _ _ _ _ _ hfold m hm
        have hub := foldMax_ub _ _ _ _ _ hfold e he
        rcases foldMin_attain _ _ _ _ _ hfold m hm with h1 | ⟨c1, hc1, b1, hb1, hs1⟩
        · cases h1
        rcases foldMax_attain _ _ _ _ _ hfold e he with h1 | ⟨c3, hc3, b3, hb3, s3, hs3, he3⟩
        · cases h1
        have hc1t : c1 ∈ tasks := (mem_childrenOf.mp hc1).1
        have hd1 : 1 ≤ b1.duration :=
          geb_duration_pos tasks hdur c1.id ⟨c1, hc1t, rfl⟩ n2 b1 hb1
        have he_ge : m + b1.duration ≤ e := hub.2 c1 hc1 b1 hb1 m hs1
        have hem : 1 ≤ e - m := by omega
        refine ⟨m, e, ?_, ⟨?_, ?_⟩, ⟨?_, ?_⟩⟩
        · have hpr : pr = (some m, some e) := Prod.ext hm he
          rw [hpr, Option.map_some']
          show some (⟨some m, max 1 (e - m)⟩ : Bounds) = some ⟨some m, e - m⟩
          rw [max_eq_right hem]
        · -- m belongs to the descendant start set
          refine ⟨c1.id, Relation.TransGen.single
            ⟨c1, hc1t, rfl, (mem_childrenOf.mp hc1).2⟩, ?_⟩
          have hup : getEffectiveTaskBounds tasks (n2 + 1) c1.id = some b1 :=
            geb_mono tasks n2 (n2 + 1) (by omega) _ _ hb1
          rw [effStart, hup]
          exact hs1
        · -- m is a lower bound
          rintro v ⟨x, htg, hesx⟩
          obtain ⟨cx, hcx_step, hcx_rtg⟩ :=
            Relation.TransGen.head'_iff.mp htg
          obtain ⟨dx, hgx⟩ := effStart_some _ _ _ _ hesx
          obtain ⟨t4, ht4, ht4id, ht4p⟩ := hcx_step
          obtain ⟨mcx, dmcx, hgcx, hmcx_le, _⟩ :=
            geb_absorb tasks rk hp (n2 + 1) hn cx x hcx_rtg
              ⟨t4, ht4, ht4id⟩ v dx hgx
          have ht4mem : t4 ∈ childrenOf tasks taskId :=
            mem_childrenOf.mpr ⟨ht4, ht4p⟩
          have hgcx2 : getEffectiveTaskBounds tasks n2 t4.id =
              some ⟨some mcx, dmcx⟩ := by
            rw [← hagree t4 ht4, ht4id]
            exact hgcx
          have hmle : m ≤ mcx :=
            hlb.2 t4 ht4mem ⟨some mcx, dmcx⟩ hgcx2 mcx rfl
          exact le_trans hmle hmcx_le
        · -- e belongs to the descendant end set
          have hc3t : c3 ∈ tasks := (mem_childrenOf.mp hc3).1
          refine ⟨c3.id, Relation.TransGen.single
            ⟨c3, hc3t, rfl, (mem_childrenOf.mp hc3).2⟩, ?_⟩
          have hup : getEffectiveTaskBounds tasks (n2 + 1) c3.id = some b3 :=
            geb_mono tasks n2 (n2 + 1) (by omega) _ _ hb3
          rw [effEnd, hup]
          obtain ⟨b3s, b3d⟩ := b3
          replace hs3 : b3s = some s3 := hs3
          rw [hs3]
          replace he3 : e = s3 + b3d := he3
          rw [he3]
        · -- e is an upper bound
          rintro v ⟨x, htg, heex⟩
          obtain ⟨cx, hcx_step, hcx_rtg⟩ :=
            Relation.TransGen.head'_iff.mp htg
          obtain ⟨sx, dx, hgx, hvx⟩ := effEnd_some _ _ _ _ heex
          obtain ⟨t4, ht4, ht4id, ht4p⟩ := hcx_step
          obtain ⟨mcx, dmcx, hgcx, _, hend_le⟩ :=
            geb_absorb tasks rk hp (n2 + 1) hn cx x hcx_rtg
              ⟨t4, ht4, ht4id⟩ sx dx hgx
          have ht4mem : t4 ∈ childrenOf tasks taskId :=
            mem_childrenOf.mpr ⟨ht4, ht4p⟩
          have hgcx2 : getEffectiveTaskBounds tasks n2 t4.id =
              some ⟨some mcx, dmcx⟩ := by
            rw [← hagree t4 ht4, ht4id]
            exact hgcx
          have hee : mcx + dmcx ≤ e :=
            hub.2 t4 ht4mem ⟨some mcx, dmcx⟩ hgcx2 mcx rfl
          omega

/-- Witness for C8 on a parent with two scheduled children: the spec is
applied at snapshot `exAgg`, task `p`, fuel 4. -/
theorem getEffectiveTaskBounds_spec_witness :
    (PRank rkAgg exAgg ∧ (∀ t ∈ exAgg, 1 ≤ t.duration) ∧
      exAgg.find? (fun t => decide (t.id = "p")) =
        some ⟨"p", some 100, 5, none, []⟩ ∧
      maxRank rkAgg exAgg + 3 ≤ 4) ∧
    ((childrenOf exAgg "p" = [] →
      getEffectiveTaskBounds exAgg 4 "p" = some ⟨some 100, 5⟩) ∧
     (childrenOf exAgg "p" ≠ [] →
      (∀ c ∈ childrenOf exAgg "p", effStart exAgg 4 c.id = none) →
      getEffectiveTaskBounds exAgg 4 "p" = some ⟨some 100, 5⟩) ∧
     (childrenOf exAgg "p" ≠ [] →
      (∃ c ∈ childrenOf exAgg "p", effStart exAgg 4 c.id ≠ none) →
      ∃ m e, getEffectiveTaskBounds exAgg 4 "p" = some ⟨some m, e - m⟩ ∧
        IsLeast {v | ∃ x, Relation.TransGen (ChildStep exAgg) "p" x ∧
          effStart exAgg 4 x = some v} m ∧
        IsGreatest {v | ∃ x, Relation.TransGen (ChildStep exAgg) "p" x ∧
          effEnd exAgg 4 x = some v} e)) :=
  ⟨⟨prank_of_bool rkAgg exAgg (by decide), by decide, rfl, by decide⟩,
   getEffectiveTaskBounds_spec exAgg rkAgg
     (prank_of_bool rkAgg exAgg (by decide)) (by decide) "p"
     ⟨"p", some 100, 5, none, []⟩ rfl 4 (by decide)⟩

end PMT
